import Mathlib

/-!
Verification of the sigma-protocol zero-knowledge proof library (zksk).

This file shallowly embeds the Python sources under `src/`:
* `src/compiler/DLRep.py` — atomic discrete-logarithm statements, their
  provers/verifiers and simulation;
* `src/And_proof.py` — And composition, its prover/verifier and the
  `check_groups` consistency checker;
* `src/zkbuilder/primitives/rangeproof.py` — bit-decomposition range
  proofs (`decompose_into_n_bits`, `internal_precommit`,
  `check_adequate_lhs`).

Big integers (`petlib.bn.Bn`) are modelled as `Nat` with explicit modular
reductions; an elliptic-curve group of prime order `q` is modelled as the
cyclic group `ZMod q` represented by natural numbers `< q`, each point
carrying the tag of the group it lives in (petlib compares groups by
identity).  Python code that raises is modelled in `Except PyError`.
-/

/-- A Python exception, as raised by the embedded code.  `keyError` models a
failed dict lookup, `indexError` a failed list index, `malformedStatement w`
the `check_groups` exception naming the offending secret `w`, and
`exception msg` a generic `Exception(msg)`. -/
inductive PyError where
  | keyError
  | indexError
  | malformedStatement (word : String)
  | exception (msg : String)
deriving DecidableEq, Repr

/-- An elliptic-curve group as seen by the library: an identity tag (petlib
`EcGroup` equality is by curve id) and its order. -/
structure EcGroup where
  gid : Nat
  order : Nat
deriving DecidableEq, Repr

/-- A point of an elliptic-curve group (`petlib.ec.EcPt`): the group it lives
in, and its discrete logarithm with respect to a fixed generator of the
cyclic group, reduced modulo the group order.  The library only consumes
`add`, negation, `scalar · EcPt`, equality, `group` and `group.infinite()`,
all of which the cyclic representation supports. -/
structure EcPt where
  group : EcGroup
  val : Nat
deriving DecidableEq, Repr

/-- EcPt addition (`EcPt.__add__`); the two operands are expected to be in
the same group, and the group tag of the left operand is kept. -/
def EcPt.add (a b : EcPt) : EcPt :=
  ⟨a.group, (a.val + b.val) % a.group.order⟩

/-- Scalar multiplication `k * P` by a nonnegative scalar. -/
def EcPt.smul (k : Nat) (p : EcPt) : EcPt :=
  ⟨p.group, (k * p.val) % p.group.order⟩

/-- Scalar multiplication `z * P` by a possibly negative scalar (used as
`(-challenge) * y` in `recompute_commitment`). -/
def EcPt.ismul (z : Int) (p : EcPt) : EcPt :=
  ⟨p.group, ((z * (p.val : Int)) % (p.group.order : Int)).toNat⟩

/-- The identity point of a group (`group.infinite()`). -/
def EcGroup.infinite (G : EcGroup) : EcPt :=
  ⟨G, 0⟩

/-- `Bn.mod_add`: `(x + y) mod q`. -/
def mod_add (x y q : Nat) : Nat := (x + y) % q

/-- `Bn.mod_mul`: `(x * y) mod q`. -/
def mod_mul (x y q : Nat) : Nat := (x * y) % q

/-- `Bn.mod_sub`: `(x - y) mod q`, computed over the integers and brought
back into `[0, q)`. -/
def mod_sub (x y q : Nat) : Nat := (((x : Int) - (y : Int)) % (q : Int)).toNat

/-- A Python `dict` mapping secret names to big integers: an ordered list of
key/value pairs with distinct keys (insertion order preserved, as in
Python). -/
structure Dict where
  entries : List (String × Nat)
deriving DecidableEq, Repr

/-- Dict lookup as an `Option` (helper for `Dict.get`). -/
def Dict.find? (d : Dict) (k : String) : Option Nat :=
  (d.entries.find? (fun kv => kv.1 == k)).map (fun kv => kv.2)

/-- Python `d[k]`: the value bound to `k`, or a `KeyError`. -/
def Dict.get (d : Dict) (k : String) : Except PyError Nat :=
  match d.find? k with
  | some v => .ok v
  | none => .error .keyError

/-- Python `d.update({k: v})` for a single binding: replace the value in
place when the key is present, append a new entry otherwise. -/
def Dict.update (d : Dict) (k : String) (v : Nat) : Dict :=
  if d.entries.any (fun kv => kv.1 == k) then
    ⟨d.entries.map (fun kv => if kv.1 == k then (k, v) else kv)⟩
  else
    ⟨d.entries ++ [(k, v)]⟩

/-- Python `d.update(other)`: fold every binding of `other` into `d`,
overwriting shared keys. -/
def Dict.updateAll (d other : Dict) : Dict :=
  other.entries.foldl (fun acc kv => acc.update kv.1 kv.2) d

/-- Python `len(d)`. -/
def Dict.length (d : Dict) : Nat := d.entries.length

/-- Python `d.keys()`, in insertion order. -/
def Dict.keys (d : Dict) : List String := d.entries.map (fun kv => kv.1)

/-- A Python list comprehension `[f x for x in xs]` in which evaluating `f`
may raise: the first exception propagates. -/
def mapExcept (f : α → Except PyError β) : List α → Except PyError (List β)
  | [] => .ok []
  | a :: rest => do
    let b ← f a
    let bs ← mapExcept f rest
    .ok (b :: bs)

/-- The list of distinct elements of `names` in order of first appearance:
the key order of a Python dict built by iterating over `names`. -/
def pyDictKeys (names : List String) : List String :=
  names.foldl (fun acc w => if w ∈ acc then acc else acc ++ [w]) []

/-- The indices at which `w` occurs in `names` (the per-name index lists of
`check_groups`). -/
def indicesOf (names : List String) (w : String) : List Nat :=
  (List.range names.length).filter (fun i => decide (names.get? i = some w))

/-! ## `src/compiler/DLRep.py` -/

/-- `raise_powers(tab_g, response)`: `g1^s1 + g2^s2 + …`, accumulated from
`tab_g[0].group.infinite()`.  Indexing `tab_g[0]` on an empty generator list
raises, hence the `Except`. -/
def raise_powers (tab_g : List EcPt) (response : List Nat) : Except PyError EcPt :=
  match tab_g.head? with
  | none => .error .indexError
  | some g0 =>
    let left_arr := (response.zip tab_g).map (fun ab => EcPt.smul ab.1 ab.2)
    .ok (left_arr.foldl EcPt.add g0.group.infinite)

/-- The prover in a discrete-logarithm proof (`DLRepProver`): its generator
list, secret-name list, secret-value dict and the left-hand side of the
statement. -/
structure DLRepProver where
  generators : List EcPt
  secret_names : List String
  secret_values : Dict
  lhs : EcPt
deriving DecidableEq, Repr

/-- The state a successful `DLRepProver.commit` stores on `self`: the drawn
randomizers `self.ks` (in term order) and the cached `self.group_order`. -/
structure CommitState where
  ks : List Nat
  group_order : Nat
deriving DecidableEq, Repr

/-- The loop of `DLRepProver.get_randomizers`: for each `(idx, sec)` of
`enumerate(secret_names)`, bind `sec` to a scalar drawn uniformly below
`generators[idx].group.order()`.  The draw at index `idx` is `sample idx`
reduced below the order; `output.update` overwrites, so a repeated name
keeps one value. -/
def randomizersLoop (gens : List EcPt) (sample : Nat → Nat) :
    List String → Nat → Dict → Except PyError Dict
  | [], _, output => .ok output
  | sec :: rest, idx, output =>
    match gens.get? idx with
    | none => .error .indexError
    | some g =>
      randomizersLoop gens sample rest (idx + 1)
        (output.update sec (sample idx % g.group.order))

/-- `DLRepProver.get_randomizers`: one random value per secret name. -/
def DLRepProver.get_randomizers (P : DLRepProver) (sample : Nat → Nat) :
    Except PyError Dict :=
  randomizersLoop P.generators sample P.secret_names 0 ⟨[]⟩

/-- `DLRepProver.commit`: refuses to run without secrets, draws (or receives)
the randomizer dict, reads `ks = [dict[sec] for sec in secret_names]`, and
returns `Σ kᵢ · Gᵢ` together with the state stored on `self`. -/
def DLRepProver.commit (P : DLRepProver) (randomizers_dict : Option Dict)
    (sample : Nat → Nat) : Except PyError (EcPt × CommitState) := do
  if P.secret_values.entries = [] then
    .error (.exception "Trying to do a legit proof without the secrets. Can only simulate")
  else
    let tab_g := P.generators
    match tab_g.head? with
    | none => .error .indexError
    | some g0 => do
      let G := g0.group
      let group_order := G.order
      let secret_to_random_value ←
        match randomizers_dict with
        | none => P.get_randomizers sample
        | some d => .ok d
      let ks ← mapExcept (fun sec => secret_to_random_value.get sec) P.secret_names
      let commits := (ks.zip tab_g).map (fun ab => EcPt.smul ab.1 ab.2)
      let sum_ := commits.foldl EcPt.add G.infinite
      .ok (sum_, ⟨ks, group_order⟩)

/-- `DLRepProver.compute_response(challenge)`: for each index `i`, the
response `secret_values[secret_names[i]].mod_mul(challenge, group_order)
.mod_add(ks[i], group_order)`.  `st` is the state stored by `commit`. -/
def DLRepProver.compute_response (P : DLRepProver) (st : CommitState)
    (challenge : Nat) : Except PyError (List Nat) :=
  mapExcept (fun i => do
      let name ←
        match P.secret_names.get? i with
        | some n => Except.ok n
        | none => Except.error PyError.indexError
      let x ← P.secret_values.get name
      let k ←
        match st.ks.get? i with
        | some k => Except.ok k
        | none => Except.error PyError.indexError
      Except.ok (mod_add (mod_mul x challenge st.group_order) k st.group_order))
    (List.range st.ks.length)

/-- `DLRepProof.recompute_commitment(challenge, responses)` (also called by a
prover during simulation, duck-typed on `generators`/`lhs`):
`raise_powers(generators, responses) + (-challenge) * lhs`. -/
def recompute_commitment (generators : List EcPt) (lhs : EcPt)
    (challenge : Nat) (responses : List Nat) : Except PyError EcPt := do
  let leftside ← raise_powers generators responses
  .ok (leftside.add (EcPt.ismul (-(challenge : Int)) lhs))

/-- `DLRepProver.simulate_proof(responses_dict, challenge)`: draw missing
responses via `get_randomizers`, default a missing challenge to a fresh
128-bit value (`chal_128bits`, drawn from `chal_entropy`), read the response
list off the dict and reconstruct the commitment with
`recompute_commitment`. -/
def DLRepProver.simulate_proof (P : DLRepProver) (responses_dict : Option Dict)
    (challenge : Option Nat) (sample : Nat → Nat) (chal_entropy : Nat) :
    Except PyError (EcPt × Nat × List Nat) := do
  let d ←
    match responses_dict with
    | none => P.get_randomizers sample
    | some d => .ok d
  let c :=
    match challenge with
    | none => chal_entropy % 2 ^ 128
    | some c => c
  let response ← mapExcept (fun m => d.get m) P.secret_names
  let commitment ← recompute_commitment P.generators P.lhs c response
  .ok (commitment, c, response)

/-- The verifier in a discrete-logarithm proof (`DLRepVerifier`). -/
structure DLRepVerifier where
  generators : List EcPt
  secret_names : List String
  lhs : EcPt
deriving DecidableEq, Repr

/-- A discrete-logarithm statement (`DLRepProof`). -/
structure DLRepProof where
  generators : List EcPt
  secret_names : List String
  lhs : EcPt
  simulate : Bool
deriving DecidableEq, Repr

/-- `DLRepProof.initialize(generators, secret_names, lhs)` (the body of the
constructor): rejects an empty generator list, a length mismatch with the
secret names, and generators from distinct groups; on success records the
three arguments unchanged with the simulation flag cleared.  (The
`isinstance` checks of the Python code are subsumed by typing.) -/
def DLRepProof.construct (generators : List EcPt) (secret_names : List String)
    (lhs : EcPt) : Except PyError DLRepProof :=
  if generators = [] then
    .error (.exception "A list of generators must be of length at least one.")
  else if secret_names.length ≠ generators.length then
    .error (.exception "secret_names and generators must be of the same length")
  else
    match generators.head? with
    | none => .error .indexError
    | some g0 =>
      if generators.any (fun g => g.group ≠ g0.group) then
        .error (.exception "All generators should come from the same group")
      else
        .ok ⟨generators, secret_names, lhs, false⟩

/-- `DLRepProof.get_verifier()`. -/
def DLRepProof.get_verifier (pf : DLRepProof) : DLRepVerifier :=
  ⟨pf.generators, pf.secret_names, pf.lhs⟩

/-- `DLRepProof.get_simulator()`: an empty prover which can only simulate. -/
def DLRepProof.get_simulator (pf : DLRepProof) : DLRepProver :=
  ⟨pf.generators, pf.secret_names, ⟨[]⟩, pf.lhs⟩

/-- What `DLRepProof.get_prover` hands back: the Python method is typed to
return a `DLRepProver` but crosses into verifier territory on the
simulate path. -/
inductive ProverOrVerifier where
  | prover (p : DLRepProver)
  | verifier (v : DLRepVerifier)
deriving DecidableEq, Repr

/-- `DLRepProof.get_prover(secrets_dict)`.  On the simulate path (simulation
flag set, or an empty secrets dict) the Python body prints `Can only
simulate` and executes `return get_verifier()`.

Modelled from the spec: the name `get_verifier` resolves outside `src/`
(through the star-import of `SigmaProtocol`); the spec records the observed
behaviour as "`get_prover` returning a verifier in the simulate-path", so
this branch returns the statement's verifier.  The remaining branches follow
the Python body: count check against the distinct secret names, key-set
comparison, and construction of the `DLRepProver`. -/
def DLRepProof.get_prover (pf : DLRepProof) (secrets_dict : Dict) :
    Except PyError ProverOrVerifier :=
  if pf.simulate = true ∨ secrets_dict.entries = [] then
    .ok (.verifier pf.get_verifier)
  else if (pyDictKeys pf.secret_names).length ≠ secrets_dict.length then
    .error (.exception "We expect as many secrets as different aliases")
  else if secrets_dict.keys.any (fun k => !(pf.secret_names.contains k)) ∨
      pf.secret_names.any (fun n => !(secrets_dict.keys.contains n)) then
    .error (.exception "secrets do not match")
  else
    .ok (.prover ⟨pf.generators, pf.secret_names, secrets_dict, pf.lhs⟩)

/-! ## `src/And_proof.py` -/

/-- `AndProofCommitment(commitment1, commitment2)`. -/
structure AndProofCommitment (γ δ : Type) where
  commitment1 : γ
  commitment2 : δ
deriving DecidableEq, Repr

/-- `AndProofResponse(response1, response2)`. -/
structure AndProofResponse (ρ σ : Type) where
  response1 : ρ
  response2 : σ
deriving DecidableEq, Repr

/-- `AndProofProver(prover1, prover2)`; the conjuncts of the composed
statements in `src/` are discrete-logarithm provers. -/
structure AndProofProver where
  prover1 : DLRepProver
  prover2 : DLRepProver
deriving DecidableEq, Repr

/-- `AndProofProver.get_randomizers`: query both children and merge,
`prover2`'s bindings overwriting shared names. -/
def AndProofProver.get_randomizers (P : AndProofProver)
    (sample1 sample2 : Nat → Nat) : Except PyError Dict := do
  let random_vals ← P.prover1.get_randomizers sample1
  let vals2 ← P.prover2.get_randomizers sample2
  .ok (random_vals.updateAll vals2)

/-- `AndProofProver.commit(randomizers_dict)`: resolve a missing dict via
`get_randomizers`, then commit both children with that same dict.  The two
`CommitState`s are the state the children store on themselves. -/
def AndProofProver.commit (P : AndProofProver) (randomizers_dict : Option Dict)
    (sample1 sample2 : Nat → Nat) :
    Except PyError (AndProofCommitment EcPt EcPt × CommitState × CommitState) := do
  let d ←
    match randomizers_dict with
    | none => P.get_randomizers sample1 sample2
    | some d => .ok d
  let (c1, st1) ← P.prover1.commit (some d) sample1
  let (c2, st2) ← P.prover2.commit (some d) sample2
  .ok (⟨c1, c2⟩, st1, st2)

/-- `AndProofProver.compute_response(challenge)`: the pair of the children's
responses to the one challenge. -/
def AndProofProver.compute_response (P : AndProofProver)
    (st1 st2 : CommitState) (challenge : Nat) :
    Except PyError (AndProofResponse (List Nat) (List Nat)) := do
  let r1 ← P.prover1.compute_response st1 challenge
  let r2 ← P.prover2.compute_response st2 challenge
  .ok ⟨r1, r2⟩

/-- A child verifier as `AndProofVerifier` consumes it: `send_challenge` on a
sub-commitment, and `verify(response, commitment, challenge)`. -/
structure ChildVerifier (γ ρ : Type) where
  send_challenge : γ → Nat
  verify : ρ → γ → Nat → Bool

/-- `AndProofVerifier(verifier1, verifier2)`. -/
structure AndProofVerifier (γ δ ρ σ : Type) where
  verifier1 : ChildVerifier γ ρ
  verifier2 : ChildVerifier δ σ

/-- The state `AndProofVerifier.send_challenge` stores on `self`: the
received commitment and the adopted challenge. -/
structure AndVerifierState (γ δ : Type) where
  commitment : AndProofCommitment γ δ
  and_challenge : Nat
deriving DecidableEq, Repr

/-- `AndProofVerifier.send_challenge(commitment)`: store the commitment,
adopt the first child's challenge on the first sub-commitment, and return
it (together with the stored state). -/
def AndProofVerifier.send_challenge (V : AndProofVerifier γ δ ρ σ)
    (commitment : AndProofCommitment γ δ) : Nat × AndVerifierState γ δ :=
  let st : AndVerifierState γ δ :=
    ⟨commitment, V.verifier1.send_challenge commitment.commitment1⟩
  (st.and_challenge, st)

/-- `AndProofVerifier.verify(responses, commitment=None, challenge=None)`:
default the challenge and commitment to the stored ones, then conjoin the
children's verifications, each against its own sub-commitment and
sub-response but the one shared challenge. -/
def AndProofVerifier.verify (V : AndProofVerifier γ δ ρ σ)
    (st : AndVerifierState γ δ) (responses : AndProofResponse ρ σ)
    (commitment : Option (AndProofCommitment γ δ)) (challenge : Option Nat) :
    Bool :=
  let challenge := challenge.getD st.and_challenge
  let commitment := commitment.getD st.commitment
  V.verifier1.verify responses.response1 commitment.commitment1 challenge &&
    V.verifier2.verify responses.response2 commitment.commitment2 challenge

/-- The inner loop of `check_groups` for one secret `w`: walk its index list
and compare each `generators[index].group` against the reference group of
the first index, raising the exception that names `w` on a mismatch. -/
def checkIdxs (gens : List EcPt) (ref : EcGroup) (w : String) :
    List Nat → Except PyError Unit
  | [] => .ok ()
  | i :: rest =>
    match gens.get? i with
    | none => .error .indexError
    | some g =>
      if g.group ≠ ref then .error (.malformedStatement w)
      else checkIdxs gens ref w rest

/-- One iteration of the outer loop of `check_groups`: for secret `w`,
fetch its index list, take `generators[gen_idx[0]].group` as the reference
group and run the inner comparison loop. -/
def checkWord (names : List String) (gens : List EcPt) (w : String) :
    Except PyError Unit :=
  let gen_idx := indicesOf names w
  match gen_idx with
  | [] => .ok ()
  | i0 :: _ =>
    match gens.get? i0 with
    | none => .error .indexError
    | some g => checkIdxs gens g.group w gen_idx

/-- The outer loop of `check_groups`, over the dict keys (distinct secret
names in first-occurrence order). -/
def checkWords (names : List String) (gens : List EcPt) :
    List String → Except PyError Unit
  | [] => .ok ()
  | w :: ws => do
    let _ ← checkWord names gens w
    checkWords names gens ws

/-- `check_groups(list_of_secret_names, list_of_generators)`: build the
name → indices map, check that every secret's generators live in one group,
and return `True`. -/
def check_groups (list_of_secret_names : List String)
    (list_of_generators : List EcPt) : Except PyError Bool := do
  let _ ← checkWords list_of_secret_names list_of_generators
      (pyDictKeys list_of_secret_names)
  .ok true

/-- A child statement as `AndProof.__init__` consumes it: it is only asked
for its `secret_names` and `group_generators` lists. -/
structure AndChild where
  secret_names : List String
  group_generators : List EcPt
deriving DecidableEq, Repr

/-- The `AndProof` statement after construction. -/
structure AndProof where
  proof1 : AndChild
  proof2 : AndChild
  group_generators : List EcPt
  secret_names : List String
deriving DecidableEq, Repr

/-- `AndProof.__init__(proof1, proof2)`: concatenate the children's
generator and secret-name lists, then run `check_groups` on them before the
construction completes. -/
def AndProof.construct (proof1 proof2 : AndChild) : Except PyError AndProof := do
  let group_generators := proof1.group_generators ++ proof2.group_generators
  let secret_names := proof1.secret_names ++ proof2.secret_names
  let _ ← check_groups secret_names group_generators
  .ok ⟨proof1, proof2, group_generators, secret_names⟩

/-! ## `src/zkbuilder/primitives/rangeproof.py` -/

/-- `decompose_into_n_bits(value, n)`: the bits of `value`, least
significant first, zero-padded to length `n`; raises when `value` needs
more than `n` bits (`petlib`'s `num_bits` is `Nat.size`). -/
def decompose_into_n_bits (value n : Nat) : Except PyError (List Nat) :=
  let base := (List.range (Nat.size value)).map
    (fun b => if value.testBit b then 1 else 0)
  if n < base.length then
    .error (.exception "Not enough bits to represent value")
  else
    .ok (base ++ List.replicate (n - base.length) 0)

/-- The range-proof statement `PowerTwoRangeProof(com, g, h, nr_bits, value,
randomizer)`, keeping the fields its precommit round and verifier post-check
read (`value`/`randomizer` are `secret_vars[0].value` and
`secret_vars[1].value`). -/
structure PowerTwoRangeProof where
  com : EcPt
  g : EcPt
  h : EcPt
  nr_bits : Nat
  value : Nat
  randomizer : Nat
deriving DecidableEq, Repr

/-- The precommitment emitted by `internal_precommit`.  The Python code
builds the single heterogeneous list `[C₀, …, C_{n-1}, ρ]`; here the `n` bit
commitments and the trailing revealed randomizer are the two fields. -/
structure Precommitment where
  cs : List EcPt
  rho : Nat
deriving DecidableEq, Repr

/-- The revealed-randomizer accumulation loop of `internal_precommit`:
`rand = rand.mod_add(r * power, order)` with `power` doubling. -/
def randLoop (q : Nat) : List Nat → Nat → Nat → Nat
  | [], rand, _ => rand
  | r :: rest, rand, power => randLoop q rest (mod_add rand (r * power) q) (power * 2)

/-- `PowerTwoRangeProver.internal_precommit`: decompose the committed value
into `nr_bits` bits, sample one fresh randomizer below the order per bit
(the draw at index `i` is `sample i` reduced), commit to each bit as
`bᵢ·g + rᵢ·h`, and append the revealed randomizer
`ρ = (Σᵢ 2ⁱ·rᵢ) − randomizer (mod order)`. -/
def internal_precommit (pf : PowerTwoRangeProof) (sample : Nat → Nat) :
    Except PyError Precommitment := do
  let g := pf.g
  let h := pf.h
  let order := pf.g.group.order
  let value := pf.value
  let value_as_bits ← decompose_into_n_bits value pf.nr_bits
  let rs := (List.range pf.nr_bits).map (fun i => sample i % order)
  let precommitment := List.zipWith
    (fun b r => (EcPt.smul b g).add (EcPt.smul r h)) value_as_bits rs
  let rand := mod_sub (randLoop order rs 0 1) pf.randomizer order
  .ok ⟨precommitment, rand⟩

/-- The bit-commitment combination loop of `check_adequate_lhs`:
`combined += power * c` with `power` doubling. -/
def combineLoop : List EcPt → EcPt → Nat → EcPt
  | [], combined, _ => combined
  | c :: rest, combined, power =>
    combineLoop rest (combined.add (EcPt.smul power c)) (power * 2)

/-- `PowerTwoRangeProof.check_adequate_lhs`: read `ρ` off the end of the
precommitment, combine the `nr_bits` bit commitments as `Σᵢ 2ⁱ·Cᵢ`, and
compare against `com + ρ·h`. -/
def check_adequate_lhs (pf : PowerTwoRangeProof) (pre : Precommitment) : Bool :=
  let rand := pre.rho
  let combined := combineLoop (pre.cs.take pf.nr_bits) pf.g.group.infinite 1
  decide (combined = pf.com.add (EcPt.smul rand pf.h))

/-! ## Bridge lemmas: points of one group as elements of `ZMod q` -/

theorem EcPt.eq_of (a b : EcPt) (hg : a.group = b.group) (hv : a.val = b.val) :
    a = b := by
  cases a; cases b; simp_all

theorem EcPt.add_group (a b : EcPt) : (a.add b).group = a.group := rfl

theorem EcPt.smul_group (k : Nat) (p : EcPt) : (EcPt.smul k p).group = p.group := rfl

theorem EcPt.ismul_group (z : Int) (p : EcPt) : (EcPt.ismul z p).group = p.group := rfl

theorem EcPt.add_val_cast {q : ℕ} (a b : EcPt) (h : a.group.order = q) :
    (((a.add b).val : ZMod q)) = (a.val : ZMod q) + (b.val : ZMod q) := by
  simp [EcPt.add, h, ZMod.natCast_mod]

theorem EcPt.add_val_lt {q : ℕ} (hq : 0 < q) (a b : EcPt) (h : a.group.order = q) :
    (a.add b).val < q := by
  simpa [EcPt.add, h] using Nat.mod_lt _ hq

theorem EcPt.smul_val_cast {q : ℕ} (k : Nat) (p : EcPt) (h : p.group.order = q) :
    ((EcPt.smul k p).val : ZMod q) = (k : ZMod q) * (p.val : ZMod q) := by
  simp [EcPt.smul, h, ZMod.natCast_mod]

theorem EcPt.ismul_val_cast {q : ℕ} (hq : 0 < q) (z : Int) (p : EcPt)
    (h : p.group.order = q) :
    ((EcPt.ismul z p).val : ZMod q) = (z : ZMod q) * (p.val : ZMod q) := by
  have hne : (q : Int) ≠ 0 := by exact_mod_cast hq.ne'
  have hnn : 0 ≤ (z * (p.val : Int)) % (q : Int) := Int.emod_nonneg _ hne
  have : (((EcPt.ismul z p).val : ℤ) : ZMod q) = (z : ZMod q) * (p.val : ZMod q) := by
    rw [EcPt.ismul, h]
    simp only [Int.toNat_of_nonneg hnn]
    rw [ZMod.intCast_mod]
    push_cast
    ring
  exact_mod_cast this

theorem EcPt.ismul_val_lt {q : ℕ} (hq : 0 < q) (z : Int) (p : EcPt)
    (h : p.group.order = q) : (EcPt.ismul z p).val < q := by
  have hpos : (0 : Int) < (q : Int) := by exact_mod_cast hq
  have := Int.emod_lt_of_pos (z * (p.val : Int)) hpos
  have hnn : 0 ≤ (z * (p.val : Int)) % (q : Int) := Int.emod_nonneg _ hpos.ne'
  simp only [EcPt.ismul, h]
  omega

theorem EcPt.eq_of_cast {q : ℕ} (hq : 0 < q) (a b : EcPt) (hg : a.group = b.group)
    (ha : a.val < q) (hb : b.val < q)
    (hc : ((a.val : ZMod q)) = (b.val : ZMod q)) : a = b := by
  haveI : NeZero q := ⟨hq.ne'⟩
  have : (a.val : ZMod q).val = (b.val : ZMod q).val := by rw [hc]
  rw [ZMod.val_cast_of_lt ha, ZMod.val_cast_of_lt hb] at this
  exact EcPt.eq_of a b hg this

/-- Folding `EcPt.add` from a reduced point of group `G` stays in `G`,
stays reduced, and adds up the values in `ZMod q`. -/
theorem foldl_add_spec {q : ℕ} (hq : 0 < q) (G : EcGroup) (hG : G.order = q) :
    ∀ (l : List EcPt) (init : EcPt), init.group = G → init.val < q →
      (l.foldl EcPt.add init).group = G ∧ (l.foldl EcPt.add init).val < q ∧
      (((l.foldl EcPt.add init).val : ZMod q) =
        (init.val : ZMod q) + (l.map (fun p => (p.val : ZMod q))).sum) := by
  intro l
  induction l with
  | nil => intro init hg hv; simpa using ⟨hg, hv⟩
  | cons a rest ih =>
    intro init hg hv
    have horder : init.group.order = q := by rw [hg, hG]
    have h1 : (init.add a).group = G := by rw [EcPt.add_group, hg]
    have h2 : (init.add a).val < q := EcPt.add_val_lt hq init a horder
    obtain ⟨e1, e2, e3⟩ := ih (init.add a) h1 h2
    refine ⟨e1, e2, ?_⟩
    rw [List.foldl_cons] at *
    rw [e3, EcPt.add_val_cast init a horder]
    simp [add_assoc]

/-- Mapping the scalar-multiplication values of `zip ss gens` into `ZMod q`. -/
theorem map_smul_val {q : ℕ} :
    ∀ (ss : List Nat) (gens : List EcPt), (∀ g ∈ gens, g.group.order = q) →
      ((ss.zip gens).map (fun ab => ((EcPt.smul ab.1 ab.2).val : ZMod q))) =
        List.zipWith (fun (s : Nat) (g : EcPt) => (s : ZMod q) * (g.val : ZMod q)) ss gens := by
  intro ss
  induction ss with
  | nil => intro gens _; simp
  | cons s rest ih =>
    intro gens hg
    cases gens with
    | nil => simp
    | cons g gs =>
      have hghead : g.group.order = q := hg g (by simp)
      simp only [List.zip_cons_cons, List.map_cons, List.zipWith_cons_cons]
      rw [EcPt.smul_val_cast s g hghead, ih gs (fun x hx => hg x (by simp [hx]))]

/-- The sigma-protocol response identity, at the level of `ZMod q` sums:
`Σ ((c·xᵢ + kᵢ) mod q)·gᵢ = c · Σ xᵢ·gᵢ + Σ kᵢ·gᵢ`. -/
theorem resp_sum_identity (q c : ℕ) :
    ∀ (gens : List EcPt) (xs ks : List Nat),
      xs.length = gens.length → ks.length = gens.length →
      (List.zipWith (fun (s : Nat) (g : EcPt) => (s : ZMod q) * (g.val : ZMod q))
          (List.zipWith (fun x k => mod_add (mod_mul x c q) k q) xs ks) gens).sum
        = (c : ZMod q) *
            (List.zipWith (fun (x : Nat) (g : EcPt) => (x : ZMod q) * (g.val : ZMod q)) xs gens).sum
          + (List.zipWith (fun (k : Nat) (g : EcPt) => (k : ZMod q) * (g.val : ZMod q)) ks gens).sum := by
  intro gens
  induction gens with
  | nil => intro xs ks hx hk; simp
  | cons g gs ih =>
    intro xs ks hx hk
    cases xs with
    | nil => simp at hx
    | cons x xs =>
      cases ks with
      | nil => simp at hk
      | cons k ks =>
        simp only [List.zipWith_cons_cons, List.sum_cons]
        rw [ih xs ks (by simpa using hx) (by simpa using hk)]
        simp only [mod_add, mod_mul, ZMod.natCast_mod, Nat.cast_add, Nat.cast_mul]
        ring

/-! ## Lemmas on `mapExcept`, `Dict` and the randomizer loop -/

theorem mapExcept_ok_length {f : α → Except PyError β} :
    ∀ {xs : List α} {ys : List β}, mapExcept f xs = .ok ys → ys.length = xs.length := by
  intro xs
  induction xs with
  | nil => intro ys h; simp [mapExcept] at h; simp [← h]
  | cons a rest ih =>
    intro ys h
    simp only [mapExcept, bind, Except.bind] at h
    cases hfa : f a with
    | error e => rw [hfa] at h; simp at h
    | ok b =>
      rw [hfa] at h
      cases hrest : mapExcept f rest with
      | error e => rw [hrest] at h; simp at h
      | ok bs =>
        rw [hrest] at h
        simp only [Except.ok.injEq, pure, Except.pure] at h
        rw [← h]
        simp [ih hrest]

theorem mapExcept_get? {f : α → Except PyError β} :
    ∀ {xs : List α} {ys : List β}, mapExcept f xs = .ok ys →
      ∀ (i : ℕ) (w : α), xs.get? i = some w →
        ∃ y, f w = .ok y ∧ ys.get? i = some y := by
  intro xs
  induction xs with
  | nil => intro ys _ i w hw; simp at hw
  | cons a rest ih =>
    intro ys h i w hw
    simp only [mapExcept, bind, Except.bind] at h
    cases hfa : f a with
    | error e => rw [hfa] at h; simp at h
    | ok b =>
      rw [hfa] at h
      cases hrest : mapExcept f rest with
      | error e => rw [hrest] at h; simp at h
      | ok bs =>
        rw [hrest] at h
        simp only [pure, Except.pure, Except.ok.injEq] at h
        subst h
        cases i with
        | zero =>
          simp only [List.get?_cons_zero, Option.some.injEq] at hw
          subst hw
          exact ⟨b, hfa, rfl⟩
        | succ i =>
          simp only [List.get?_cons_succ] at hw ⊢
          exact ih hrest i w hw

theorem mapExcept_ok_of_forall {f : α → Except PyError β} :
    ∀ {xs : List α}, (∀ x ∈ xs, ∃ y, f x = .ok y) →
      ∃ ys, mapExcept f xs = .ok ys := by
  intro xs
  induction xs with
  | nil => intro _; exact ⟨[], rfl⟩
  | cons a rest ih =>
    intro h
    obtain ⟨b, hb⟩ := h a (by simp)
    obtain ⟨bs, hbs⟩ := ih (fun x hx => h x (by simp [hx]))
    exact ⟨b :: bs, by simp [mapExcept, bind, Except.bind, hb, hbs, pure, Except.pure]⟩

theorem mapExcept_eq_map {f : α → Except PyError β} (g : α → β) :
    ∀ {xs : List α}, (∀ x ∈ xs, f x = .ok (g x)) →
      mapExcept f xs = .ok (xs.map g) := by
  intro xs
  induction xs with
  | nil => intro _; rfl
  | cons a rest ih =>
    intro h
    have ha := h a (by simp)
    have hrest := ih (fun x hx => h x (by simp [hx]))
    simp [mapExcept, bind, Except.bind, ha, hrest, pure, Except.pure]

theorem find?_map_replace (k : String) (v : Nat) :
    ∀ (l : List (String × Nat)), l.any (fun kv => kv.1 == k) = true →
      (l.map (fun kv => if kv.1 == k then (k, v) else kv)).find?
          (fun kv => kv.1 == k) = some (k, v) := by
  intro l
  induction l with
  | nil => intro h; simp at h
  | cons hd tl ih =>
    intro h
    by_cases hk : hd.1 = k
    · have hbeq : (hd.1 == k) = true := by simp [hk]
      simp only [List.map_cons, hbeq, if_true]
      rw [List.find?_cons_of_pos _ (by simp)]
    · have hbeq : (hd.1 == k) = false := by simp [hk]
      simp only [List.any_cons, hbeq, Bool.false_or] at h
      simp only [List.map_cons, hbeq, Bool.false_eq_true, if_false]
      rw [List.find?_cons_of_neg _ (by simp [hbeq])]
      exact ih h

theorem find?_none_of_not_any (k : String) :
    ∀ (l : List (String × Nat)), l.any (fun kv => kv.1 == k) = false →
      l.find? (fun kv => kv.1 == k) = none := by
  intro l
  induction l with
  | nil => intro _; rfl
  | cons hd tl ih =>
    intro h
    simp only [List.any_cons, Bool.or_eq_false_iff] at h
    rw [List.find?_cons_of_neg _ (by simp [h.1]), ih h.2]

theorem Dict.get_update_self (d : Dict) (k : String) (v : Nat) :
    (d.update k v).get k = .ok v := by
  unfold Dict.update Dict.get Dict.find?
  by_cases h : d.entries.any (fun kv => kv.1 == k) = true
  · simp only [h, if_true]
    rw [find?_map_replace k v d.entries h]
    rfl
  · have h2 : d.entries.any (fun kv => kv.1 == k) = false :=
      Bool.not_eq_true _ ▸ h
    simp only [h2, Bool.false_eq_true, if_false]
    rw [List.find?_append, find?_none_of_not_any k d.entries h2]
    rw [List.find?_cons_of_pos _ (by simp)]
    rfl

theorem Dict.get_update_ne (d : Dict) (k : String) (v : Nat) (w : String)
    (hw : w ≠ k) : (d.update k v).get w = d.get w := by
  unfold Dict.update Dict.get Dict.find?
  have hkw : (k == w) = false := by
    simp only [beq_eq_false_iff_ne, ne_eq]
    exact fun he => hw he.symm
  by_cases h : d.entries.any (fun kv => kv.1 == k) = true
  · simp only [h, if_true]
    have hfind : ∀ l : List (String × Nat),
        (l.map (fun kv => if kv.1 == k then (k, v) else kv)).find?
            (fun kv => kv.1 == w) = l.find? (fun kv => kv.1 == w) := by
      intro l
      induction l with
      | nil => rfl
      | cons hd tl ih =>
        by_cases hk : hd.1 = k
        · have h1 : (hd.1 == k) = true := by simp [hk]
          have h2 : (hd.1 == w) = false := by
            simp only [beq_eq_false_iff_ne, ne_eq, hk]
            exact fun he => hw he.symm
          simp only [List.map_cons, h1, if_true]
          rw [List.find?_cons_of_neg _ (by simp [hkw]),
            List.find?_cons_of_neg _ (by simp [h2]), ih]
        · have h1 : (hd.1 == k) = false := by simp [hk]
          simp only [List.map_cons, h1, Bool.false_eq_true, if_false]
          by_cases hww : hd.1 = w
          · rw [List.find?_cons_of_pos _ (by simp [hww]),
              List.find?_cons_of_pos _ (by simp [hww])]
          · rw [List.find?_cons_of_neg _ (by simp [hww]),
              List.find?_cons_of_neg _ (by simp [hww]), ih]
    rw [hfind]
  · have h2 : d.entries.any (fun kv => kv.1 == k) = false :=
      Bool.not_eq_true _ ▸ h
    simp only [h2, Bool.false_eq_true, if_false]
    rw [List.find?_append]
    have hlast : List.find? (fun kv => kv.1 == w) [(k, v)] = none := by
      rw [List.find?_cons_of_neg _ (by simp [hkw])]
      rfl
    rw [hlast]
    cases List.find? (fun kv => kv.1 == w) d.entries <;> rfl

theorem Dict.get_update_isOk (d : Dict) (k : String) (v : Nat) (w : String)
    (h : ∃ y, d.get w = .ok y) : ∃ y, (d.update k v).get w = .ok y := by
  by_cases hw : w = k
  · subst hw; exact ⟨v, Dict.get_update_self d w v⟩
  · rw [Dict.get_update_ne d k v w hw]; exact h

/-- The randomizer loop succeeds when the names fit inside the generator
list, and its result binds every processed name (and keeps every key the
accumulator already had). -/
theorem randomizersLoop_spec (gens : List EcPt) (sample : Nat → Nat) :
    ∀ (names : List String) (idx : ℕ) (acc : Dict),
      idx + names.length ≤ gens.length →
      ∃ d, randomizersLoop gens sample names idx acc = .ok d ∧
        (∀ w ∈ names, ∃ y, d.get w = .ok y) ∧
        (∀ w, (∃ y, acc.get w = .ok y) → ∃ z, d.get w = .ok z) := by
  intro names
  induction names with
  | nil =>
    intro idx acc _
    exact ⟨acc, rfl, by simp, fun w hw => hw⟩
  | cons sec rest ih =>
    intro idx acc hle
    have hidx : idx < gens.length := by
      simp only [List.length_cons] at hle; omega
    have hg : ∃ g, gens.get? idx = some g := by
      rw [List.get?_eq_getElem?]
      exact ⟨gens[idx], List.getElem?_eq_getElem hidx⟩
    obtain ⟨g, hg⟩ := hg
    have hle2 : (idx + 1) + rest.length ≤ gens.length := by
      simp only [List.length_cons] at hle; omega
    obtain ⟨d, hd, hnames, hkeep⟩ :=
      ih (idx + 1) (acc.update sec (sample idx % g.group.order)) hle2
    refine ⟨d, ?_, ?_, ?_⟩
    · rw [randomizersLoop, hg]
      exact hd
    · intro w hw
      rcases List.mem_cons.mp hw with hws | hwr
      · subst hws
        exact hkeep w ⟨_, Dict.get_update_self acc w _⟩
      · exact hnames w hwr
    · intro w hwy
      exact hkeep w (Dict.get_update_isOk acc sec _ w hwy)

/-! ## Claim theorems -/

/-- **C4.** Single-challenge And verification: `send_challenge` stores the
received commitment and returns exactly the challenge the first child
produces on the first sub-commitment; `verify` is the Boolean conjunction of
the children's verifications, each child checked against its own
sub-commitment and sub-response but the one stored challenge — unless an
explicit commitment/challenge is passed, which is then used for both
children. -/
theorem andVerifier_single_challenge {γ δ ρ σ : Type}
    (V : AndProofVerifier γ δ ρ σ) (com : AndProofCommitment γ δ)
    (resp : AndProofResponse ρ σ) :
    (V.send_challenge com).1 = V.verifier1.send_challenge com.commitment1 ∧
    (V.send_challenge com).2.commitment = com ∧
    V.verify (V.send_challenge com).2 resp none none =
      (V.verifier1.verify resp.response1 com.commitment1
          (V.verifier1.send_challenge com.commitment1) &&
        V.verifier2.verify resp.response2 com.commitment2
          (V.verifier1.send_challenge com.commitment1)) ∧
    (∀ (com2 : AndProofCommitment γ δ) (c2 : Nat),
      V.verify (V.send_challenge com).2 resp (some com2) (some c2) =
        (V.verifier1.verify resp.response1 com2.commitment1 c2 &&
          V.verifier2.verify resp.response2 com2.commitment2 c2)) :=
  ⟨rfl, rfl, rfl, fun _ _ => rfl⟩

/-- **C3.** Structural simulation soundness: for any responses dict covering
the secret names and any challenge, `simulate_proof` returns a transcript
`(commitment, challenge, responses)` whose commitment is exactly
`recompute_commitment(challenge, responses)` — so a simulated transcript
passes the verifier's check equation. -/
theorem simulate_transcript_passes_check (P : DLRepProver) (d : Dict)
    (c : Nat) (resp : List Nat) (sample : Nat → Nat) (e : Nat)
    (hresp : mapExcept (fun m => d.get m) P.secret_names = .ok resp)
    (hne : P.generators ≠ []) :
    ∃ com, P.simulate_proof (some d) (some c) sample e = .ok (com, c, resp) ∧
      recompute_commitment P.generators P.lhs c resp = .ok com := by
  cases hgen : P.generators with
  | nil => exact absurd hgen hne
  | cons g0 gs =>
    refine ⟨((resp.zip (g0 :: gs)).map (fun ab => EcPt.smul ab.1 ab.2)).foldl
        EcPt.add g0.group.infinite |>.add (EcPt.ismul (-(c : Int)) P.lhs), ?_, ?_⟩
    · simp only [DLRepProver.simulate_proof, hresp, hgen, recompute_commitment,
        raise_powers, List.head?_cons, bind, Except.bind, pure, Except.pure]
    · simp only [recompute_commitment, raise_powers, hgen, List.head?_cons,
        bind, Except.bind, pure, Except.pure]

/-- Witness for C3 at a concrete one-term statement over the group of
order 11. -/
theorem simulate_transcript_passes_check_witness :
    mapExcept (fun m => Dict.get ⟨[("x", 2)]⟩ m) ["x"] = .ok [2] ∧
    ∃ com,
      DLRepProver.simulate_proof ⟨[⟨⟨0, 11⟩, 3⟩], ["x"], ⟨[]⟩, ⟨⟨0, 11⟩, 4⟩⟩
          (some ⟨[("x", 2)]⟩) (some 5) (fun _ => 0) 0 = .ok (com, 5, [2]) ∧
      recompute_commitment [⟨⟨0, 11⟩, 3⟩] ⟨⟨0, 11⟩, 4⟩ 5 [2] = .ok com :=
  ⟨by rfl,
    simulate_transcript_passes_check ⟨[⟨⟨0, 11⟩, 3⟩], ["x"], ⟨[]⟩, ⟨⟨0, 11⟩, 4⟩⟩
      ⟨[("x", 2)]⟩ 5 [2] (fun _ => 0) 0 (by rfl) (by simp)⟩

/-- **C9** (evaluation at the failing input).  On the simulate path — here an
empty secrets dict with the simulation flag clear — `get_prover` hands back
the statement's *verifier* (the Python body executes `return get_verifier()`
after printing `Can only simulate`), contradicting both the claim and the
method's own docstring, which promise a `DLRepProver`. -/
theorem get_prover_simulate_path_returns_verifier :
    DLRepProof.get_prover ⟨[⟨⟨0, 11⟩, 3⟩], ["x"], ⟨⟨0, 11⟩, 4⟩, false⟩ ⟨[]⟩ =
      .ok (.verifier ⟨[⟨⟨0, 11⟩, 3⟩], ["x"], ⟨⟨0, 11⟩, 4⟩⟩) := by rfl

/-- **C6** (counterexample).  `DLRepProof.initialize` never inspects the
group of `lhs`: a statement whose left-hand side lives in a different group
from its (coherent) generators is accepted, where the claim says
construction must fail. -/
theorem construct_accepts_mismatched_lhs_group :
    DLRepProof.construct [⟨⟨0, 5⟩, 1⟩] ["x"] ⟨⟨1, 7⟩, 3⟩ =
        .ok ⟨[⟨⟨0, 5⟩, 1⟩], ["x"], ⟨⟨1, 7⟩, 3⟩, false⟩ ∧
      (⟨⟨1, 7⟩, 3⟩ : EcPt).group ≠ (⟨⟨0, 5⟩, 1⟩ : EcPt).group :=
  ⟨by rfl, by decide⟩

/-- **C6** (amended).  `DLRepProof.initialize` fails exactly on an empty
term list, a secret-name/generator length mismatch, or generators from
distinct groups; when those three conditions hold it succeeds and records
generators, secret names and lhs unchanged (with the simulation flag
cleared) — the group of `lhs` is never checked. -/
theorem construct_spec (generators : List EcPt) (secret_names : List String)
    (lhs : EcPt) :
    (generators ≠ [] → secret_names.length = generators.length →
      (∀ g ∈ generators, ∀ g0 ∈ generators.head?, g.group = g0.group) →
      DLRepProof.construct generators secret_names lhs =
        .ok ⟨generators, secret_names, lhs, false⟩) ∧
    (generators = [] ∨ secret_names.length ≠ generators.length ∨
        (∃ g ∈ generators, ∃ g0 ∈ generators.head?, g.group ≠ g0.group) →
      ∃ msg, DLRepProof.construct generators secret_names lhs =
        .error (.exception msg)) := by
  constructor
  · intro hne hlen hgrp
    obtain ⟨g0, gs, rfl⟩ : ∃ g0 gs, generators = g0 :: gs := by
      cases generators with
      | nil => exact absurd rfl hne
      | cons a l => exact ⟨a, l, rfl⟩
    have hany : (g0 :: gs).any (fun g => g.group ≠ g0.group) = false := by
      simp only [List.any_eq_false, decide_eq_true_eq, ne_eq, Decidable.not_not]
      intro g hgmem
      exact hgrp g hgmem g0 (by simp)
    rw [DLRepProof.construct, if_neg hne, if_neg (by omega)]
    simp only [List.head?_cons]
    rw [if_neg (by rw [hany]; exact Bool.false_ne_true)]
  · intro h
    by_cases hne : generators = []
    · exact ⟨_, by rw [DLRepProof.construct, if_pos hne]⟩
    · by_cases hlen : secret_names.length = generators.length
      · have hgrp : ∃ g ∈ generators, ∃ g0 ∈ generators.head?,
            g.group ≠ g0.group := by
          rcases h with h | h | h
          · exact absurd h hne
          · exact absurd hlen h
          · exact h
        obtain ⟨ghead, gs, rfl⟩ : ∃ g0 gs, generators = g0 :: gs := by
          cases generators with
          | nil => exact absurd rfl hne
          | cons a l => exact ⟨a, l, rfl⟩
        rcases hgrp with ⟨g, hgmem, g0, hg0, hgg⟩
        have hg0eq : ghead = g0 := by simpa using hg0
        subst hg0eq
        have hany : (ghead :: gs).any (fun x => x.group ≠ ghead.group) = true := by
          simp only [List.any_eq_true, decide_eq_true_eq]
          exact ⟨g, hgmem, hgg⟩
        rw [DLRepProof.construct, if_neg hne, if_neg (by omega)]
        simp only [List.head?_cons]
        rw [if_pos hany]
        exact ⟨_, rfl⟩
      · exact ⟨_, by rw [DLRepProof.construct, if_neg hne, if_pos (by omega)]⟩
/-- Witness for the amended C6: a two-term statement over one group is
accepted with its fields recorded unchanged, and the empty statement is
rejected. -/
theorem construct_spec_witness :
    DLRepProof.construct [⟨⟨0, 5⟩, 1⟩, ⟨⟨0, 5⟩, 2⟩] ["x", "y"] ⟨⟨0, 5⟩, 0⟩ =
        .ok ⟨[⟨⟨0, 5⟩, 1⟩, ⟨⟨0, 5⟩, 2⟩], ["x", "y"], ⟨⟨0, 5⟩, 0⟩, false⟩ ∧
      ∃ msg, DLRepProof.construct [] [] ⟨⟨0, 5⟩, 0⟩ = .error (.exception msg) :=
  ⟨(construct_spec [⟨⟨0, 5⟩, 1⟩, ⟨⟨0, 5⟩, 2⟩] ["x", "y"] ⟨⟨0, 5⟩, 0⟩).1
      (by decide) (by decide) (by decide),
    (construct_spec [] [] ⟨⟨0, 5⟩, 0⟩).2 (Or.inl rfl)⟩

/-- `decompose_into_n_bits` raises exactly when the value needs more than
`n` bits. -/
theorem decompose_error_iff (v n : Nat) :
    decompose_into_n_bits v n =
        .error (.exception "Not enough bits to represent value") ↔
      n < Nat.size v := by
  unfold decompose_into_n_bits
  by_cases h : n < ((List.range (Nat.size v)).map
      (fun b => if v.testBit b then 1 else 0)).length
  · simp only [if_pos h]
    simp only [List.length_map, List.length_range] at h
    simpa using h
  · simp only [if_neg h]
    simp only [List.length_map, List.length_range] at h
    constructor
    · intro hcontra; exact absurd hcontra (by simp)
    · intro hlt; exact absurd hlt h

/-- On success, `decompose_into_n_bits` returns exactly `n` bits of `v`,
least significant first, zero-padded at the high end. -/
theorem decompose_ok (v n : Nat) (h : Nat.size v ≤ n) :
    ∃ l, decompose_into_n_bits v n = .ok l ∧ l.length = n ∧
      ∀ i, i < n → l.get? i = some (if v.testBit i then 1 else 0) := by
  unfold decompose_into_n_bits
  have hlen : ((List.range (Nat.size v)).map
      (fun b => if v.testBit b then 1 else 0)).length = Nat.size v := by
    simp
  rw [if_neg (by omega)]
  refine ⟨_, rfl, ?_, ?_⟩
  · simp; omega
  · intro i hi
    by_cases hiv : i < Nat.size v
    · rw [List.get?_append (by simpa using hiv)]
      rw [List.get?_eq_getElem?, List.getElem?_map, List.getElem?_range hiv]
      rfl
    · rw [List.get?_append_right (by simpa using hiv)]
      have hbit : v.testBit i = false :=
        Nat.testBit_eq_false_of_lt (lt_of_lt_of_le (Nat.lt_size_self v)
          (Nat.pow_le_pow_right (by norm_num) (by omega)))
      rw [hbit]
      rw [List.get?_eq_getElem?, List.getElem?_replicate]
      simp only [hlen]
      rw [if_pos (by simp at hiv ⊢; omega)]
      rfl

/-- **C8.** Out-of-range rejection at precommit: `decompose_into_n_bits`
errors exactly when `v.num_bits() > n`, otherwise returns the `n` bits of
`v` LSB-first (zero-padded); consequently `internal_precommit` fails for a
value exceeding the declared bit width. -/
theorem decompose_rejects_out_of_range (v n : Nat) :
    (decompose_into_n_bits v n =
        .error (.exception "Not enough bits to represent value") ↔
      n < Nat.size v) ∧
    (Nat.size v ≤ n →
      ∃ l, decompose_into_n_bits v n = .ok l ∧ l.length = n ∧
        ∀ i, i < n → l.get? i = some (if v.testBit i then 1 else 0)) ∧
    (∀ (pf : PowerTwoRangeProof) (sample : Nat → Nat), pf.value = v →
      pf.nr_bits = n → n < Nat.size v →
      internal_precommit pf sample =
        .error (.exception "Not enough bits to represent value")) := by
  refine ⟨decompose_error_iff v n, decompose_ok v n, ?_⟩
  intro pf sample hval hbits hlt
  have herr := (decompose_error_iff v n).mpr hlt
  rw [internal_precommit, hval, hbits, herr]
  rfl

/-- Witness for C8: the 6-bit value 42 is rejected at width 5, both by the
decomposition and by the precommit step. -/
theorem decompose_rejects_out_of_range_witness :
    decompose_into_n_bits 42 5 =
        .error (.exception "Not enough bits to represent value") ∧
      internal_precommit ⟨⟨⟨0, 11⟩, 0⟩, ⟨⟨0, 11⟩, 1⟩, ⟨⟨0, 11⟩, 4⟩, 5, 42, 0⟩
          (fun _ => 0) =
        .error (.exception "Not enough bits to represent value") :=
  ⟨(decompose_rejects_out_of_range 42 5).1.mpr (by rw [Nat.lt_size]; norm_num),
    (decompose_rejects_out_of_range 42 5).2.2
      ⟨⟨⟨0, 11⟩, 0⟩, ⟨⟨0, 11⟩, 1⟩, ⟨⟨0, 11⟩, 4⟩, 5, 42, 0⟩ (fun _ => 0)
      rfl rfl (by rw [Nat.lt_size]; norm_num)⟩

/-- **C10.** Simulated responses are consistent across shared secret names:
when no responses dict is supplied, `simulate_proof` draws the responses
keyed by secret name via `get_randomizers`, so any two positions bearing
the same secret name receive the same response value. -/
theorem simulate_responses_share_names (P : DLRepProver)
    (challenge : Option Nat) (sample : Nat → Nat) (e : Nat)
    (hlen : P.secret_names.length ≤ P.generators.length)
    (hne : P.generators ≠ []) :
    ∃ com c resp,
      P.simulate_proof none challenge sample e = .ok (com, c, resp) ∧
      ∀ i j w, P.secret_names.get? i = some w →
        P.secret_names.get? j = some w → resp.get? i = resp.get? j := by
  obtain ⟨d, hd, hnames, -⟩ :=
    randomizersLoop_spec P.generators sample P.secret_names 0 ⟨[]⟩ (by omega)
  have hgr : P.get_randomizers sample = .ok d := hd
  obtain ⟨resp, hresp⟩ :=
    mapExcept_ok_of_forall (f := fun m => d.get m) (fun w hw => hnames w hw)
  obtain ⟨g0, gs, hgen⟩ : ∃ g0 gs, P.generators = g0 :: gs := by
    cases hg : P.generators with
    | nil => exact absurd hg hne
    | cons a l => exact ⟨a, l, rfl⟩
  have hshared : ∀ i j w, P.secret_names.get? i = some w →
      P.secret_names.get? j = some w → resp.get? i = resp.get? j := by
    intro i j w hi hj
    obtain ⟨y, hy, hyi⟩ := mapExcept_get? hresp i w hi
    obtain ⟨z, hz, hzj⟩ := mapExcept_get? hresp j w hj
    rw [hy] at hz
    cases hz
    rw [hyi, hzj]
  cases challenge with
  | none =>
    refine ⟨(((resp.zip (g0 :: gs)).map (fun ab => EcPt.smul ab.1 ab.2)).foldl
        EcPt.add g0.group.infinite).add
          (EcPt.ismul (-((e % 2 ^ 128 : Nat) : Int)) P.lhs),
      e % 2 ^ 128, resp, ?_, hshared⟩
    simp only [DLRepProver.simulate_proof, hgr, hresp, recompute_commitment,
      raise_powers, hgen, List.head?_cons, bind, Except.bind, pure, Except.pure]
  | some c0 =>
    refine ⟨(((resp.zip (g0 :: gs)).map (fun ab => EcPt.smul ab.1 ab.2)).foldl
        EcPt.add g0.group.infinite).add (EcPt.ismul (-(c0 : Int)) P.lhs),
      c0, resp, ?_, hshared⟩
    simp only [DLRepProver.simulate_proof, hgr, hresp, recompute_commitment,
      raise_powers, hgen, List.head?_cons, bind, Except.bind, pure, Except.pure]

/-- Witness for C10: a two-term statement sharing the name `x` across both
terms; the two simulated responses coincide. -/
theorem simulate_responses_share_names_witness :
    ∃ com c resp,
      DLRepProver.simulate_proof
          ⟨[⟨⟨0, 11⟩, 3⟩, ⟨⟨0, 11⟩, 5⟩], ["x", "x"], ⟨[]⟩, ⟨⟨0, 11⟩, 4⟩⟩
          none (some 7) (fun i => i + 2) 0 = .ok (com, c, resp) ∧
      ∀ i j w, (["x", "x"] : List String).get? i = some w →
        (["x", "x"] : List String).get? j = some w →
        resp.get? i = resp.get? j :=
  simulate_responses_share_names
    ⟨[⟨⟨0, 11⟩, 3⟩, ⟨⟨0, 11⟩, 5⟩], ["x", "x"], ⟨[]⟩, ⟨⟨0, 11⟩, 4⟩⟩
    (some 7) (fun i => i + 2) 0 (by decide) (by decide)


/-- A successful `DLRepProver.commit` with an explicit randomizer dict
stores `ks = [dict[sec] for sec in secret_names]`. -/
theorem commit_state_ks (Q : DLRepProver) (d : Dict) (sample : Nat → Nat)
    (c : EcPt) (st : CommitState)
    (h : Q.commit (some d) sample = .ok (c, st)) :
    mapExcept (fun sec => d.get sec) Q.secret_names = .ok st.ks := by
  rw [DLRepProver.commit.eq_def] at h
  by_cases hsv : Q.secret_values.entries = []
  · rw [if_pos hsv] at h
    exact absurd h (by simp)
  · rw [if_neg hsv] at h
    simp only [bind, Except.bind, pure, Except.pure] at h
    cases hgen : Q.generators.head? with
    | none =>
      rw [hgen] at h
      exact absurd h (by simp)
    | some g0 =>
      rw [hgen] at h
      cases hks : mapExcept (fun sec => d.get sec) Q.secret_names with
      | error e =>
        rw [hks] at h
        exact absurd h (by simp)
      | ok ks =>
        rw [hks] at h
        simp only [Except.ok.injEq, Prod.mk.injEq] at h
        rw [← h.2]

/-- The body of `AndProofProver.commit` once the randomizer dict `d` is
fixed: both children commit with that same `d`, and the two stored `ks`
lists agree on shared secret names. -/
theorem and_commit_with_dict (P : AndProofProver) (d : Dict)
    (sample1 sample2 : Nat → Nat) (com : AndProofCommitment EcPt EcPt)
    (st1 st2 : CommitState)
    (h : P.commit (some d) sample1 sample2 = .ok (com, st1, st2)) :
    P.prover1.commit (some d) sample1 = .ok (com.commitment1, st1) ∧
    P.prover2.commit (some d) sample2 = .ok (com.commitment2, st2) ∧
    ∀ i j w, P.prover1.secret_names.get? i = some w →
      P.prover2.secret_names.get? j = some w →
      st1.ks.get? i = st2.ks.get? j := by
  rw [AndProofProver.commit.eq_def] at h
  simp only [bind, Except.bind, pure, Except.pure] at h
  cases hc1 : P.prover1.commit (some d) sample1 with
  | error e =>
    rw [hc1] at h
    exact absurd h (by simp)
  | ok p1 =>
    rw [hc1] at h
    cases hc2 : P.prover2.commit (some d) sample2 with
    | error e =>
      rw [hc2] at h
      exact absurd h (by simp)
    | ok p2 =>
      rw [hc2] at h
      simp only [Except.ok.injEq, Prod.mk.injEq] at h
      obtain ⟨hcom, hst1, hst2⟩ := h
      subst hst1
      subst hst2
      have hks1 := commit_state_ks P.prover1 d sample1 p1.1 p1.2 hc1
      have hks2 := commit_state_ks P.prover2 d sample2 p2.1 p2.2 hc2
      refine ⟨by rw [← hcom], by rw [← hcom], ?_⟩
      intro i j w hi hj
      obtain ⟨y, hy, hyi⟩ := mapExcept_get? hks1 i w hi
      obtain ⟨z, hz, hzj⟩ := mapExcept_get? hks2 j w hj
      rw [hy] at hz
      cases hz
      rw [hyi, hzj]

/-- **C5.** Randomizer sharing across conjuncts: a successful
`AndProofProver.commit` resolves one single randomizer dict (the given one,
or the merged `get_randomizers` result when none is given), passes that
same dict to both children's `commit` calls, and hence any two terms in
different conjuncts bearing the same secret name are committed with equal
randomizer values. -/
theorem and_commit_shares_randomizers (P : AndProofProver)
    (randomizers_dict : Option Dict) (sample1 sample2 : Nat → Nat)
    (com : AndProofCommitment EcPt EcPt) (st1 st2 : CommitState)
    (h : P.commit randomizers_dict sample1 sample2 = .ok (com, st1, st2)) :
    ∃ d, (∀ d0, randomizers_dict = some d0 → d = d0) ∧
      (randomizers_dict = none →
        P.get_randomizers sample1 sample2 = .ok d) ∧
      P.prover1.commit (some d) sample1 = .ok (com.commitment1, st1) ∧
      P.prover2.commit (some d) sample2 = .ok (com.commitment2, st2) ∧
      ∀ i j w, P.prover1.secret_names.get? i = some w →
        P.prover2.secret_names.get? j = some w →
        st1.ks.get? i = st2.ks.get? j := by
  cases hrd : randomizers_dict with
  | some d0 =>
    rw [hrd] at h
    obtain ⟨h1, h2, h3⟩ := and_commit_with_dict P d0 sample1 sample2 com st1 st2 h
    exact ⟨d0, fun x hx => by cases hx; rfl, by simp, h1, h2, h3⟩
  | none =>
    rw [hrd] at h
    cases hgr : P.get_randomizers sample1 sample2 with
    | error e =>
      rw [AndProofProver.commit.eq_def] at h
      simp only [hgr, bind, Except.bind] at h
      exact absurd h (by simp)
    | ok d =>
      rw [AndProofProver.commit.eq_def] at h
      simp only [hgr, bind, Except.bind] at h
      have hsome : P.commit (some d) sample1 sample2 = .ok (com, st1, st2) := by
        rw [AndProofProver.commit.eq_def]
        simp only [bind, Except.bind]
        exact h
      obtain ⟨h1, h2, h3⟩ :=
        and_commit_with_dict P d sample1 sample2 com st1 st2 hsome
      exact ⟨d, by simp, fun _ => rfl, h1, h2, h3⟩

/-- Witness for C5 at two one-term conjuncts sharing the secret name `x`
(with an explicitly supplied randomizer dict). -/
theorem and_commit_shares_randomizers_witness :
    AndProofProver.commit
        ⟨⟨[⟨⟨0, 11⟩, 3⟩], ["x"], ⟨[("x", 2)]⟩, ⟨⟨0, 11⟩, 6⟩⟩,
          ⟨[⟨⟨0, 11⟩, 5⟩], ["x"], ⟨[("x", 2)]⟩, ⟨⟨0, 11⟩, 10⟩⟩⟩
        (some ⟨[("x", 7)]⟩) (fun _ => 0) (fun _ => 0) =
      .ok (⟨⟨⟨0, 11⟩, 10⟩, ⟨⟨0, 11⟩, 2⟩⟩, ⟨[7], 11⟩, ⟨[7], 11⟩) ∧
    ∃ d, (∀ d0, (some ⟨[("x", 7)]⟩ : Option Dict) = some d0 → d = d0) ∧
      ((some ⟨[("x", 7)]⟩ : Option Dict) = none →
        AndProofProver.get_randomizers
          ⟨⟨[⟨⟨0, 11⟩, 3⟩], ["x"], ⟨[("x", 2)]⟩, ⟨⟨0, 11⟩, 6⟩⟩,
            ⟨[⟨⟨0, 11⟩, 5⟩], ["x"], ⟨[("x", 2)]⟩, ⟨⟨0, 11⟩, 10⟩⟩⟩
          (fun _ => 0) (fun _ => 0) = .ok d) ∧
      DLRepProver.commit ⟨[⟨⟨0, 11⟩, 3⟩], ["x"], ⟨[("x", 2)]⟩, ⟨⟨0, 11⟩, 6⟩⟩
          (some d) (fun _ => 0) = .ok (⟨⟨0, 11⟩, 10⟩, ⟨[7], 11⟩) ∧
      DLRepProver.commit ⟨[⟨⟨0, 11⟩, 5⟩], ["x"], ⟨[("x", 2)]⟩, ⟨⟨0, 11⟩, 10⟩⟩
          (some d) (fun _ => 0) = .ok (⟨⟨0, 11⟩, 2⟩, ⟨[7], 11⟩) ∧
      ∀ i j w, (["x"] : List String).get? i = some w →
        (["x"] : List String).get? j = some w →
        ([7] : List Nat).get? i = ([7] : List Nat).get? j :=
  ⟨by rfl,
    and_commit_shares_randomizers
      ⟨⟨[⟨⟨0, 11⟩, 3⟩], ["x"], ⟨[("x", 2)]⟩, ⟨⟨0, 11⟩, 6⟩⟩,
        ⟨[⟨⟨0, 11⟩, 5⟩], ["x"], ⟨[("x", 2)]⟩, ⟨⟨0, 11⟩, 10⟩⟩⟩
      (some ⟨[("x", 7)]⟩) (fun _ => 0) (fun _ => 0)
      ⟨⟨⟨0, 11⟩, 10⟩, ⟨⟨0, 11⟩, 2⟩⟩ ⟨[7], 11⟩ ⟨[7], 11⟩ (by rfl)⟩

/-! ## Lemmas for the consistency checker -/

theorem get?_some_lt {α : Type} {l : List α} {i : ℕ} {a : α}
    (h : l.get? i = some a) : i < l.length := by
  by_contra hc
  rw [List.get?_eq_none.mpr (by omega)] at h
  exact absurd h (by simp)

theorem get?_some_of_lt {α : Type} {l : List α} {i : ℕ} (h : i < l.length) :
    ∃ a, l.get? i = some a := by
  rw [List.get?_eq_getElem?]
  exact ⟨l[i], List.getElem?_eq_getElem h⟩

theorem mem_indicesOf {names : List String} {w : String} {i : ℕ} :
    i ∈ indicesOf names w ↔ names.get? i = some w := by
  simp only [indicesOf, List.mem_filter, List.mem_range, decide_eq_true_eq]
  constructor
  · exact fun h => h.2
  · exact fun h => ⟨get?_some_lt h, h⟩

theorem mem_pyDictKeys {names : List String} {w : String} :
    w ∈ pyDictKeys names ↔ w ∈ names := by
  have key : ∀ (l : List String) (acc : List String),
      w ∈ l.foldl (fun acc x => if x ∈ acc then acc else acc ++ [x]) acc ↔
        w ∈ acc ∨ w ∈ l := by
    intro l
    induction l with
    | nil => intro acc; simp
    | cons x rest ih =>
      intro acc
      rw [List.foldl_cons, ih]
      by_cases hx : x ∈ acc
      · rw [if_pos hx]
        constructor
        · rintro (h | h)
          · exact Or.inl h
          · exact Or.inr (by simp [h])
        · rintro (h | h)
          · exact Or.inl h
          · rcases List.mem_cons.mp h with rfl | h
            · exact Or.inl hx
            · exact Or.inr h
      · rw [if_neg hx]
        simp only [List.mem_append, List.mem_singleton, List.mem_cons]
        tauto
  rw [pyDictKeys, key]
  simp

/-- The inner loop of `check_groups` either passes or raises the exception
naming `w`; it passes exactly when every indexed generator's group is the
reference group. -/
theorem checkIdxs_spec (gens : List EcPt) (ref : EcGroup) (w : String) :
    ∀ idxs : List Nat, (∀ i ∈ idxs, i < gens.length) →
      ((checkIdxs gens ref w idxs = .ok ()) ↔
        ∀ i ∈ idxs, ∀ g, gens.get? i = some g → g.group = ref) ∧
      (checkIdxs gens ref w idxs = .ok () ∨
        checkIdxs gens ref w idxs = .error (.malformedStatement w)) := by
  intro idxs
  induction idxs with
  | nil => intro _; exact ⟨by simp [checkIdxs], Or.inl rfl⟩
  | cons i rest ih =>
    intro hb
    obtain ⟨g, hg⟩ := get?_some_of_lt (hb i (by simp))
    obtain ⟨ih1, ih2⟩ := ih (fun x hx => hb x (by simp [hx]))
    by_cases hgr : g.group = ref
    · have hstep : checkIdxs gens ref w (i :: rest) = checkIdxs gens ref w rest := by
        rw [checkIdxs, hg]
        exact if_neg (by simp [hgr])
      constructor
      · rw [hstep, ih1]
        constructor
        · intro h x hx gx hgx
          rcases List.mem_cons.mp hx with rfl | hx
          · rw [hg] at hgx
            cases hgx
            exact hgr
          · exact h x hx gx hgx
        · intro h x hx gx hgx
          exact h x (by simp [hx]) gx hgx
      · rw [hstep]
        exact ih2
    · have hstep : checkIdxs gens ref w (i :: rest) =
          .error (.malformedStatement w) := by
        rw [checkIdxs, hg]
        exact if_pos (by simp [hgr])
      constructor
      · rw [hstep]
        constructor
        · intro h; exact absurd h (by simp)
        · intro h
          exact absurd (h i (by simp) g hg) hgr
      · exact Or.inr hstep

/-- One outer-loop iteration of `check_groups` passes exactly when all
generators attached to occurrences of `w` share one group; otherwise it
raises the exception naming `w`. -/
theorem checkWord_spec (names : List String) (gens : List EcPt) (w : String)
    (hlen : names.length ≤ gens.length) :
    ((checkWord names gens w = .ok ()) ↔
      ∀ i j gi gj, names.get? i = some w → names.get? j = some w →
        gens.get? i = some gi → gens.get? j = some gj →
        gi.group = gj.group) ∧
    (checkWord names gens w = .ok () ∨
      checkWord names gens w = .error (.malformedStatement w)) := by
  cases hidx : indicesOf names w with
  | nil =>
    have hw : checkWord names gens w = .ok () := by rw [checkWord, hidx]
    rw [hw]
    refine ⟨?_, Or.inl rfl⟩
    simp only [true_iff]
    intro i j gi gj hi hj _ _
    have hmem : i ∈ indicesOf names w := mem_indicesOf.mpr hi
    rw [hidx] at hmem
    exact absurd hmem (by simp)
  | cons i0 rest =>
    have hi0mem : i0 ∈ indicesOf names w := by rw [hidx]; simp
    have hi0 : names.get? i0 = some w := mem_indicesOf.mp hi0mem
    have hb : ∀ i ∈ (i0 :: rest : List Nat), i < gens.length := by
      intro i hi
      have hmem : i ∈ indicesOf names w := by rw [hidx]; exact hi
      exact lt_of_lt_of_le (get?_some_lt (mem_indicesOf.mp hmem)) hlen
    obtain ⟨g0, hg0⟩ := get?_some_of_lt (hb i0 (by simp))
    have hw : checkWord names gens w = checkIdxs gens g0.group w (i0 :: rest) := by
      rw [checkWord, hidx]
      show (match gens.get? i0 with
          | none => Except.error PyError.indexError
          | some g => checkIdxs gens g.group w (i0 :: rest)) =
        checkIdxs gens g0.group w (i0 :: rest)
      rw [hg0]
    rw [hw]
    obtain ⟨hiff, htot⟩ := checkIdxs_spec gens g0.group w (i0 :: rest) hb
    refine ⟨?_, htot⟩
    rw [hiff]
    constructor
    · intro h i j gi gj hi hj hgi hgj
      have hri : i ∈ (i0 :: rest : List Nat) := by
        rw [← hidx]; exact mem_indicesOf.mpr hi
      have hrj : j ∈ (i0 :: rest : List Nat) := by
        rw [← hidx]; exact mem_indicesOf.mpr hj
      rw [h i hri gi hgi, h j hrj gj hgj]
    · intro h i hi gi hgi
      have hiw : names.get? i = some w := by
        apply mem_indicesOf.mp
        rw [hidx]
        exact hi
      exact h i i0 gi g0 hiw hi0 hgi hg0

/-- `checkWords` passes exactly when every listed word passes. -/
theorem checkWords_ok_iff (names : List String) (gens : List EcPt) :
    ∀ ws : List String, checkWords names gens ws = .ok () ↔
      ∀ w ∈ ws, checkWord names gens w = .ok () := by
  intro ws
  induction ws with
  | nil => simp [checkWords]
  | cons w rest ih =>
    rw [checkWords]
    cases hw : checkWord names gens w with
    | error e =>
      simp only [bind, Except.bind]
      constructor
      · intro h; exact absurd h (by simp)
      · intro h
        exact absurd (h w (by simp)) (by simp [hw])
    | ok u =>
      cases u
      simp only [bind, Except.bind, ih]
      constructor
      · intro h x hx
        rcases List.mem_cons.mp hx with rfl | hx
        · exact hw
        · exact h x hx
      · intro h x hx
        exact h x (by simp [hx])

/-- A `checkWords` failure is the failure of one of the listed words. -/
theorem checkWords_error (names : List String) (gens : List EcPt) :
    ∀ (ws : List String) (e : PyError),
      checkWords names gens ws = .error e →
      ∃ w ∈ ws, checkWord names gens w = .error e := by
  intro ws
  induction ws with
  | nil => intro e h; exact absurd h (by simp [checkWords])
  | cons w rest ih =>
    intro e h
    rw [checkWords] at h
    cases hw : checkWord names gens w with
    | error e0 =>
      rw [hw] at h
      simp only [bind, Except.bind, Except.error.injEq] at h
      exact ⟨w, by simp, by rw [hw, h]⟩
    | ok u =>
      cases u
      rw [hw] at h
      simp only [bind, Except.bind] at h
      obtain ⟨x, hx, hxe⟩ := ih e h
      exact ⟨x, by simp [hx], hxe⟩

/-- `check_groups` returns `True` exactly when every shared secret name sees
one group; on failure the raised exception names an offending secret. -/
theorem check_groups_spec (names : List String) (gens : List EcPt)
    (hlen : names.length ≤ gens.length) :
    ((∀ i j w gi gj, names.get? i = some w → names.get? j = some w →
        gens.get? i = some gi → gens.get? j = some gj → gi.group = gj.group) →
      check_groups names gens = .ok true) ∧
    ((∃ i j w gi gj, names.get? i = some w ∧ names.get? j = some w ∧
        gens.get? i = some gi ∧ gens.get? j = some gj ∧ gi.group ≠ gj.group) →
      ∃ w, check_groups names gens = .error (.malformedStatement w) ∧
        ∃ i j gi gj, names.get? i = some w ∧ names.get? j = some w ∧
          gens.get? i = some gi ∧ gens.get? j = some gj ∧
          gi.group ≠ gj.group) := by
  constructor
  · intro h
    have hok : checkWords names gens (pyDictKeys names) = .ok () := by
      rw [checkWords_ok_iff]
      intro w _
      exact ((checkWord_spec names gens w hlen).1).mpr
        (fun i j gi gj hi hj hgi hgj => h i j w gi gj hi hj hgi hgj)
    rw [check_groups, hok]
    rfl
  · intro hoff
    obtain ⟨i, j, w, gi, gj, hi, hj, hgi, hgj, hne⟩ := hoff
    have hnotok : checkWords names gens (pyDictKeys names) ≠ .ok () := by
      intro hcontra
      have hall := (checkWords_ok_iff names gens (pyDictKeys names)).mp hcontra
      have hwin : w ∈ pyDictKeys names := by
        rw [mem_pyDictKeys]
        exact List.get?_mem hi
      have hwok := ((checkWord_spec names gens w hlen).1).mp (hall w hwin)
      exact hne (hwok i j gi gj hi hj hgi hgj)
    cases hcw : checkWords names gens (pyDictKeys names) with
    | ok u => cases u; exact absurd hcw hnotok
    | error e =>
      obtain ⟨w0, hw0mem, hw0err⟩ := checkWords_error names gens _ e hcw
      rcases (checkWord_spec names gens w0 hlen).2 with hok | herr
      · rw [hok] at hw0err
        exact absurd hw0err (by simp)
      · rw [herr] at hw0err
        have he : e = .malformedStatement w0 := by
          cases hw0err
          rfl
        subst he
        have hnotall : ¬ ∀ i j gi gj, names.get? i = some w0 →
            names.get? j = some w0 → gens.get? i = some gi →
            gens.get? j = some gj → gi.group = gj.group := by
          rw [← (checkWord_spec names gens w0 hlen).1]
          rw [herr]
          simp
        push_neg at hnotall
        obtain ⟨i1, j1, gi1, gj1, hi1, hj1, hgi1, hgj1, hne1⟩ := hnotall
        refine ⟨w0, ?_, i1, j1, gi1, gj1, hi1, hj1, hgi1, hgj1, hne1⟩
        rw [check_groups, hcw]
        rfl

/-- **C2.** Group-coherence enforcement at build time: `AndProof.__init__`
runs `check_groups` over the concatenated secret-name and generator lists of
its two children; when every shared name's generators all carry one group
the checker returns `True` and construction succeeds, and when some secret
name occurs at two indices whose generators carry different groups the
construction raises the exception naming an offending secret. -/
theorem and_construct_group_coherence (proof1 proof2 : AndChild)
    (hlen : (proof1.secret_names ++ proof2.secret_names).length ≤
      (proof1.group_generators ++ proof2.group_generators).length) :
    ((∀ i j w gi gj,
        (proof1.secret_names ++ proof2.secret_names).get? i = some w →
        (proof1.secret_names ++ proof2.secret_names).get? j = some w →
        (proof1.group_generators ++ proof2.group_generators).get? i = some gi →
        (proof1.group_generators ++ proof2.group_generators).get? j = some gj →
        gi.group = gj.group) →
      check_groups (proof1.secret_names ++ proof2.secret_names)
          (proof1.group_generators ++ proof2.group_generators) = .ok true ∧
      AndProof.construct proof1 proof2 =
        .ok ⟨proof1, proof2, proof1.group_generators ++ proof2.group_generators,
          proof1.secret_names ++ proof2.secret_names⟩) ∧
    ((∃ i j w gi gj,
        (proof1.secret_names ++ proof2.secret_names).get? i = some w ∧
        (proof1.secret_names ++ proof2.secret_names).get? j = some w ∧
        (proof1.group_generators ++ proof2.group_generators).get? i = some gi ∧
        (proof1.group_generators ++ proof2.group_generators).get? j = some gj ∧
        gi.group ≠ gj.group) →
      ∃ w, AndProof.construct proof1 proof2 =
          .error (.malformedStatement w) ∧
        ∃ i j gi gj,
          (proof1.secret_names ++ proof2.secret_names).get? i = some w ∧
          (proof1.secret_names ++ proof2.secret_names).get? j = some w ∧
          (proof1.group_generators ++ proof2.group_generators).get? i = some gi ∧
          (proof1.group_generators ++ proof2.group_generators).get? j = some gj ∧
          gi.group ≠ gj.group) := by
  obtain ⟨hcoh, hinc⟩ := check_groups_spec
    (proof1.secret_names ++ proof2.secret_names)
    (proof1.group_generators ++ proof2.group_generators) hlen
  constructor
  · intro h
    have hok := hcoh h
    refine ⟨hok, ?_⟩
    rw [AndProof.construct]
    simp only [hok, bind, Except.bind]
  · intro h
    obtain ⟨w, hw, hoffense⟩ := hinc h
    refine ⟨w, ?_, hoffense⟩
    rw [AndProof.construct]
    simp only [hw, bind, Except.bind]

/-- Witness for C2: two single-term children sharing the secret `x`, first
over one group (accepted), then over two groups (rejected naming `x`). -/
theorem and_construct_group_coherence_witness :
    (check_groups ["x", "x"] [⟨⟨0, 11⟩, 3⟩, ⟨⟨0, 11⟩, 5⟩] = .ok true ∧
      AndProof.construct ⟨["x"], [⟨⟨0, 11⟩, 3⟩]⟩ ⟨["x"], [⟨⟨0, 11⟩, 5⟩]⟩ =
        .ok ⟨⟨["x"], [⟨⟨0, 11⟩, 3⟩]⟩, ⟨["x"], [⟨⟨0, 11⟩, 5⟩]⟩,
          [⟨⟨0, 11⟩, 3⟩, ⟨⟨0, 11⟩, 5⟩], ["x", "x"]⟩) ∧
    ∃ w, AndProof.construct ⟨["x"], [⟨⟨0, 11⟩, 3⟩]⟩ ⟨["x"], [⟨⟨1, 7⟩, 5⟩]⟩ =
        .error (.malformedStatement w) ∧
      ∃ i j gi gj, (["x", "x"] : List String).get? i = some w ∧
        (["x", "x"] : List String).get? j = some w ∧
        ([⟨⟨0, 11⟩, 3⟩, ⟨⟨1, 7⟩, 5⟩] : List EcPt).get? i = some gi ∧
        ([⟨⟨0, 11⟩, 3⟩, ⟨⟨1, 7⟩, 5⟩] : List EcPt).get? j = some gj ∧
        gi.group ≠ gj.group :=
  ⟨(and_construct_group_coherence ⟨["x"], [⟨⟨0, 11⟩, 3⟩]⟩
      ⟨["x"], [⟨⟨0, 11⟩, 5⟩]⟩ (by decide)).1
      (by
        intro i j w gi gj hi hj hgi hgj
        rcases i with _ | _ | i <;> rcases j with _ | _ | j <;> simp_all <;>
          rw [← hgi, ← hgj]),
    (and_construct_group_coherence ⟨["x"], [⟨⟨0, 11⟩, 3⟩]⟩
      ⟨["x"], [⟨⟨1, 7⟩, 5⟩]⟩ (by decide)).2
      ⟨0, 1, "x", ⟨⟨0, 11⟩, 3⟩, ⟨⟨1, 7⟩, 5⟩, by decide, by decide, by decide,
        by decide, by decide⟩⟩

/-- A map over `range` whose entries agree with a binary function of the
indexed elements is a `zipWith`. -/
theorem map_range_eq_zipWith {α β γ : Type} (xs : List α) (ks : List β)
    (f : α → β → γ) (g : ℕ → γ) (hlen : xs.length = ks.length)
    (hg : ∀ i, i < xs.length → ∀ x k, xs.get? i = some x →
      ks.get? i = some k → g i = f x k) :
    (List.range xs.length).map g = List.zipWith f xs ks := by
  apply List.ext_get?
  intro n
  rw [List.get?_eq_getElem?, List.get?_eq_getElem?, List.getElem?_map,
    List.getElem?_zipWith]
  by_cases hn : n < xs.length
  · have hkn : n < ks.length := by omega
    obtain ⟨x, hxn⟩ := get?_some_of_lt hn
    obtain ⟨k, hkn2⟩ := get?_some_of_lt hkn
    rw [List.getElem?_range hn]
    rw [List.get?_eq_getElem?] at hxn hkn2
    rw [hxn, hkn2]
    simp only [Option.map_some']
    rw [hg n hn x k (by rw [List.get?_eq_getElem?]; exact hxn)
      (by rw [List.get?_eq_getElem?]; exact hkn2)]
  · have hr : (List.range xs.length)[n]? = none := by
      rw [List.getElem?_eq_none_iff, List.length_range]
      omega
    have hx : xs[n]? = none := by
      rw [List.getElem?_eq_none_iff]
      omega
    rw [hr, hx]
    simp

/-- **C1.** Completeness of the atomic DLRep protocol: for a prover over
generators of one group of prime order `q`, witness values satisfying
`lhs = Σ xᵢ·Gᵢ` (equal names bound to one value, both being dict lookups),
any randomizer dict covering the secret names and any challenge `c`, the
honest transcript verifies: `recompute_commitment(c, compute_response(c))`
equals the point returned by `commit`. -/
theorem dlrep_completeness (P : DLRepProver) (G : EcGroup) (q : ℕ)
    (rd : Dict) (xs ks : List Nat) (c : Nat) (sample : Nat → Nat)
    (hq : Nat.Prime q) (hG : G.order = q)
    (hgens : ∀ g ∈ P.generators, g.group = G)
    (hne : P.generators ≠ [])
    (hlen : P.secret_names.length = P.generators.length)
    (hsvne : P.secret_values.entries ≠ [])
    (hxs : mapExcept (fun sec => P.secret_values.get sec) P.secret_names = .ok xs)
    (hks : mapExcept (fun sec => rd.get sec) P.secret_names = .ok ks)
    (hlhs : raise_powers P.generators xs = .ok P.lhs) :
    ∃ com st resp,
      P.commit (some rd) sample = .ok (com, st) ∧
      P.compute_response st c = .ok resp ∧
      recompute_commitment P.generators P.lhs c resp = .ok com := by
  have hq0 : 0 < q := hq.pos
  obtain ⟨g0, gs, hgen⟩ : ∃ g0 gs, P.generators = g0 :: gs := by
    cases hg : P.generators with
    | nil => exact absurd hg hne
    | cons a l => exact ⟨a, l, rfl⟩
  have hg0G : g0.group = G := hgens g0 (by rw [hgen]; simp)
  have hq2 : g0.group.order = q := by rw [hg0G, hG]
  have hhead : P.generators.head? = some g0 := by rw [hgen]; rfl
  have hxlen : xs.length = P.secret_names.length := mapExcept_ok_length hxs
  have hklen : ks.length = P.secret_names.length := mapExcept_ok_length hks
  have hqgens : ∀ g ∈ P.generators, g.group.order = q := by
    intro g hg
    rw [hgens g hg, hG]
  -- the commitment and the state stored on the prover
  have hcommit : P.commit (some rd) sample =
      .ok (((ks.zip P.generators).map (fun ab => EcPt.smul ab.1 ab.2)).foldl
        EcPt.add g0.group.infinite, ⟨ks, q⟩) := by
    rw [DLRepProver.commit.eq_def, if_neg hsvne]
    simp only [hhead, hks, bind, Except.bind, pure, Except.pure, hq2]
  -- the response list
  have hresp : P.compute_response ⟨ks, q⟩ c =
      .ok ((List.range ks.length).map (fun i =>
        mod_add (mod_mul (xs.getD i 0) c q) (ks.getD i 0) q)) := by
    rw [DLRepProver.compute_response]
    apply mapExcept_eq_map
    intro i hi
    rw [List.mem_range] at hi
    have hi2 : i < ks.length := hi
    have hiN : i < P.secret_names.length := by omega
    obtain ⟨name, hname⟩ := get?_some_of_lt hiN
    obtain ⟨x, hxval, hxi⟩ := mapExcept_get? hxs i name hname
    obtain ⟨k, hk⟩ := get?_some_of_lt hi2
    have hxgd : xs.getD i 0 = x := by
      rw [List.getD_eq_getElem?_getD, ← List.get?_eq_getElem?, hxi]
      rfl
    have hkgd : ks.getD i 0 = k := by
      rw [List.getD_eq_getElem?_getD, ← List.get?_eq_getElem?, hk]
      rfl
    simp only [hname, hxval, hk, bind, Except.bind, pure, Except.pure,
      hxgd, hkgd]
  -- the response list as a zipWith over witnesses and randomizers
  have hresp_zip : (List.range ks.length).map (fun i =>
      mod_add (mod_mul (xs.getD i 0) c q) (ks.getD i 0) q) =
      List.zipWith (fun x k => mod_add (mod_mul x c q) k q) xs ks := by
    have hxk : xs.length = ks.length := by omega
    rw [← hxk]
    apply map_range_eq_zipWith xs ks _ _ hxk
    intro i hi x k hx hk
    rw [List.getD_eq_getElem?_getD, ← List.get?_eq_getElem?, hx,
      List.getD_eq_getElem?_getD, ← List.get?_eq_getElem?, hk]
    rfl
  -- raise_powers applied to the responses
  have hL : raise_powers P.generators
      (List.zipWith (fun x k => mod_add (mod_mul x c q) k q) xs ks) =
      .ok ((((List.zipWith (fun x k => mod_add (mod_mul x c q) k q) xs ks).zip
          P.generators).map (fun ab => EcPt.smul ab.1 ab.2)).foldl
        EcPt.add g0.group.infinite) := by
    rw [raise_powers.eq_def, hhead]
  -- the left-hand side is the fold of the witness terms
  have hlhs2 : P.lhs = ((xs.zip P.generators).map
      (fun ab => EcPt.smul ab.1 ab.2)).foldl EcPt.add g0.group.infinite := by
    rw [raise_powers.eq_def, hhead] at hlhs
    simpa using hlhs.symm
  -- the three folds, through the ZMod q lens
  have hinit_group : (g0.group.infinite).group = G := hg0G
  have hinit_lt : (g0.group.infinite).val < q := hq0
  obtain ⟨hcomG, hcomlt, hcomcast⟩ := foldl_add_spec hq0 G hG
    ((ks.zip P.generators).map (fun ab => EcPt.smul ab.1 ab.2))
    g0.group.infinite hinit_group hinit_lt
  obtain ⟨hLG, hLlt, hLcast⟩ := foldl_add_spec hq0 G hG
    (((List.zipWith (fun x k => mod_add (mod_mul x c q) k q) xs ks).zip
      P.generators).map (fun ab => EcPt.smul ab.1 ab.2))
    g0.group.infinite hinit_group hinit_lt
  obtain ⟨hlhsG, hlhslt, hlhscast⟩ := foldl_add_spec hq0 G hG
    ((xs.zip P.generators).map (fun ab => EcPt.smul ab.1 ab.2))
    g0.group.infinite hinit_group hinit_lt
  rw [← hlhs2] at hlhsG hlhslt hlhscast
  refine ⟨_, _, _, hcommit, by rw [hresp, hresp_zip], ?_⟩
  -- recompute_commitment evaluates to the simulta­neously folded point
  rw [recompute_commitment, hL]
  simp only [bind, Except.bind, pure, Except.pure, Except.ok.injEq]
  -- final point equality
  set L := (((List.zipWith (fun x k => mod_add (mod_mul x c q) k q) xs ks).zip
      P.generators).map (fun ab => EcPt.smul ab.1 ab.2)).foldl
    EcPt.add g0.group.infinite with hLdef
  set com := ((ks.zip P.generators).map (fun ab => EcPt.smul ab.1 ab.2)).foldl
    EcPt.add g0.group.infinite with hcomdef
  have hLorder : L.group.order = q := by rw [hLG, hG]
  apply EcPt.eq_of_cast hq0
  · rw [EcPt.add_group, hLG, hcomG]
  · exact EcPt.add_val_lt hq0 L _ hLorder
  · exact hcomlt
  · -- the ZMod q computation
    rw [EcPt.add_val_cast L _ hLorder, hLcast, hcomcast,
      EcPt.ismul_val_cast hq0 _ P.lhs (by rw [hlhsG, hG]), hlhscast]
    rw [List.map_map, List.map_map, List.map_map]
    simp only [Function.comp_def, EcGroup.infinite]
    rw [map_smul_val ks P.generators hqgens,
      map_smul_val xs P.generators hqgens,
      map_smul_val (List.zipWith (fun x k => mod_add (mod_mul x c q) k q) xs ks)
        P.generators hqgens]
    rw [resp_sum_identity q c P.generators xs ks (by omega) (by omega)]
    push_cast
    ring

/-- Witness for C1: the two-term statement `4·1 = 2·(3·1) + 4·(5·1)` over the
group of prime order 11, with randomizers 7 and 1 and challenge 5. -/
theorem dlrep_completeness_witness :
    ∃ com st resp,
      DLRepProver.commit
          ⟨[⟨⟨0, 11⟩, 3⟩, ⟨⟨0, 11⟩, 5⟩], ["x", "y"],
            ⟨[("x", 2), ("y", 4)]⟩, ⟨⟨0, 11⟩, 4⟩⟩
          (some ⟨[("x", 7), ("y", 1)]⟩) (fun _ => 0) = .ok (com, st) ∧
      DLRepProver.compute_response
          ⟨[⟨⟨0, 11⟩, 3⟩, ⟨⟨0, 11⟩, 5⟩], ["x", "y"],
            ⟨[("x", 2), ("y", 4)]⟩, ⟨⟨0, 11⟩, 4⟩⟩ st 5 = .ok resp ∧
      recompute_commitment [⟨⟨0, 11⟩, 3⟩, ⟨⟨0, 11⟩, 5⟩] ⟨⟨0, 11⟩, 4⟩ 5 resp =
        .ok com :=
  dlrep_completeness
    ⟨[⟨⟨0, 11⟩, 3⟩, ⟨⟨0, 11⟩, 5⟩], ["x", "y"],
      ⟨[("x", 2), ("y", 4)]⟩, ⟨⟨0, 11⟩, 4⟩⟩
    ⟨0, 11⟩ 11 ⟨[("x", 7), ("y", 1)]⟩ [2, 4] [7, 1] 5 (fun _ => 0)
    (by norm_num) rfl (by decide) (by decide) rfl (by decide)
    (by rfl) (by rfl) (by rfl)
/-! ## Weighted sums for the range-proof loops -/

/-- `Σᵢ power·2ⁱ·lᵢ` in `ZMod q`, with the doubling accumulator the two
range-proof loops use. -/
def wsum (q : ℕ) : List (ZMod q) → ZMod q → ZMod q
  | [], _ => 0
  | a :: rest, power => power * a + wsum q rest (power * 2)

theorem wsum_mul (q : ℕ) (c : ZMod q) :
    ∀ (l : List (ZMod q)) (power : ZMod q),
      wsum q l (c * power) = c * wsum q l power := by
  intro l
  induction l with
  | nil => intro power; simp [wsum]
  | cons a rest ih =>
    intro power
    rw [wsum, wsum, show c * power * 2 = c * (power * 2) by ring, ih]
    ring

theorem wsum_linear (q : ℕ) (gv hv : ZMod q) :
    ∀ (bs rs : List (ZMod q)) (power : ZMod q), bs.length = rs.length →
      wsum q (List.zipWith (fun b r => b * gv + r * hv) bs rs) power =
        wsum q bs power * gv + wsum q rs power * hv := by
  intro bs
  induction bs with
  | nil =>
    intro rs power h
    have hr : rs = [] := by
      cases rs with
      | nil => rfl
      | cons x l => simp at h
    subst hr
    simp [wsum]
  | cons b bs ih =>
    intro rs power h
    cases rs with
    | nil => simp at h
    | cons r rs =>
      rw [List.zipWith_cons_cons, wsum, wsum, wsum,
        ih rs (power * 2) (by simpa using h)]
      ring

/-- `b₀ + 2·b₁ + 4·b₂ + …` over the naturals. -/
def natWsum : List Nat → Nat
  | [] => 0
  | a :: rest => a + 2 * natWsum rest

theorem wsum_natCast (q : ℕ) :
    ∀ l : List Nat, wsum q (l.map (fun (a : ℕ) => (a : ZMod q))) 1 =
      ((natWsum l : ℕ) : ZMod q) := by
  intro l
  induction l with
  | nil => simp [wsum, natWsum]
  | cons a rest ih =>
    rw [List.map_cons, wsum, natWsum,
      show ((1 : ZMod q) * 2) = 2 * 1 by ring, wsum_mul, ih]
    push_cast
    ring

/-- A list holding exactly the low `n` bits of `v` (LSB first) sums to `v`
under binary weights. -/
theorem natWsum_bits :
    ∀ (l : List Nat) (v n : Nat), l.length = n →
      (∀ i, i < n → l.get? i = some (if v.testBit i then 1 else 0)) →
      v < 2 ^ n → natWsum l = v := by
  intro l
  induction l with
  | nil =>
    intro v n hlen _ hv
    subst hlen
    simp only [List.length_nil, pow_zero, Nat.lt_one_iff] at hv
    simp [natWsum, hv]
  | cons a rest ih =>
    intro v n hlen hget hv
    cases n with
    | zero => simp at hlen
    | succ m =>
      have hrestlen : rest.length = m := by simpa using hlen
      have ha : a = v % 2 := by
        have h0 := hget 0 (by omega)
        simp only [List.get?_cons_zero, Option.some.injEq, Nat.testBit_zero] at h0
        rcases Nat.mod_two_eq_zero_or_one v with h2 | h2 <;> simp [h2] at h0 <;>
          omega
      have hrest : natWsum rest = v / 2 := by
        apply ih (v / 2) m hrestlen
        · intro i hi
          have hgi := hget (i + 1) (by omega)
          simp only [List.get?_cons_succ] at hgi
          rw [hgi, Nat.testBit_add_one]
        · have h2 : 2 ^ (m + 1) = 2 ^ m * 2 := by ring
          rw [h2] at hv
          omega
      rw [natWsum, ha, hrest]
      omega

/-- The `combined += power * c` loop of `check_adequate_lhs`, through the
`ZMod q` lens. -/
theorem combineLoop_spec {q : ℕ} (hq : 0 < q) (G : EcGroup) (hG : G.order = q) :
    ∀ (cs : List EcPt) (combined : EcPt) (power : Nat),
      combined.group = G → combined.val < q →
      (∀ p ∈ cs, p.group.order = q) →
      (combineLoop cs combined power).group = G ∧
      (combineLoop cs combined power).val < q ∧
      (((combineLoop cs combined power).val : ZMod q) =
        (combined.val : ZMod q) +
          wsum q (cs.map (fun p => (p.val : ZMod q))) (power : ZMod q)) := by
  intro cs
  induction cs with
  | nil =>
    intro combined power hg hv _
    exact ⟨hg, hv, by simp [combineLoop, wsum]⟩
  | cons c rest ih =>
    intro combined power hg hv hcs
    have horder : combined.group.order = q := by rw [hg, hG]
    have hcq : c.group.order = q := hcs c (by simp)
    have hg2 : (combined.add (EcPt.smul power c)).group = G := by
      rw [EcPt.add_group, hg]
    have hv2 : (combined.add (EcPt.smul power c)).val < q :=
      EcPt.add_val_lt hq combined _ horder
    obtain ⟨e1, e2, e3⟩ := ih (combined.add (EcPt.smul power c)) (power * 2)
      hg2 hv2 (fun p hp => hcs p (by simp [hp]))
    rw [combineLoop]
    refine ⟨e1, e2, ?_⟩
    rw [e3, EcPt.add_val_cast combined _ horder,
      EcPt.smul_val_cast power c hcq, List.map_cons, wsum,
      show ((power * 2 : ℕ) : ZMod q) = (power : ZMod q) * 2 by
        push_cast; ring]
    ring

/-- The revealed-randomizer loop of `internal_precommit`, through the
`ZMod q` lens. -/
theorem randLoop_cast {q : ℕ} :
    ∀ (rs : List Nat) (rand power : Nat),
      ((randLoop q rs rand power : ℕ) : ZMod q) =
        (rand : ZMod q) +
          wsum q (rs.map (fun (a : ℕ) => (a : ZMod q))) (power : ZMod q) := by
  intro rs
  induction rs with
  | nil => intro rand power; simp [randLoop, wsum]
  | cons r rest ih =>
    intro rand power
    rw [randLoop, ih, List.map_cons, wsum, mod_add, ZMod.natCast_mod,
      show ((power * 2 : ℕ) : ZMod q) = (power : ZMod q) * 2 by
        push_cast; ring]
    push_cast
    ring

theorem mod_sub_cast {q : ℕ} (hq : 0 < q) (x y : Nat) :
    ((mod_sub x y q : ℕ) : ZMod q) = (x : ZMod q) - (y : ZMod q) := by
  have hne : (q : Int) ≠ 0 := by exact_mod_cast hq.ne'
  have hnn : 0 ≤ ((x : Int) - (y : Int)) % (q : Int) := Int.emod_nonneg _ hne
  have hcast : (((mod_sub x y q : ℕ) : ℤ) : ZMod q) =
      (x : ZMod q) - (y : ZMod q) := by
    rw [mod_sub]
    simp only [Int.toNat_of_nonneg hnn]
    rw [ZMod.intCast_mod]
    push_cast
    ring
  exact_mod_cast hcast

/-- The values of the bit commitments `bᵢ·g + rᵢ·h`, through the `ZMod q`
lens. -/
theorem map_bitcommit_val {q : ℕ} (g h : EcPt) (hg : g.group.order = q)
    (hh : h.group.order = q) :
    ∀ (bs rs : List Nat),
      ((List.zipWith (fun b r => (EcPt.smul b g).add (EcPt.smul r h)) bs rs).map
          (fun p => (p.val : ZMod q))) =
        List.zipWith (fun b r => b * (g.val : ZMod q) + r * (h.val : ZMod q))
          (bs.map (fun (a : ℕ) => (a : ZMod q)))
          (rs.map (fun (a : ℕ) => (a : ZMod q))) := by
  intro bs
  induction bs with
  | nil => intro rs; simp
  | cons b bs ih =>
    intro rs
    cases rs with
    | nil => simp
    | cons r rs =>
      simp only [List.zipWith_cons_cons, List.map_cons, ih]
      congr 1
      rw [EcPt.add_val_cast _ _ (by rw [EcPt.smul_group, hg]),
        EcPt.smul_val_cast b g hg, EcPt.smul_val_cast r h hh]

/-- **C7.** Honest range precommitment passes the verifier post-check: for
`com = v·g + r·h` with `v.num_bits() ≤ nr_bits`, whatever randomizers
`internal_precommit` samples, the emitted precommitment `[C₀…C_{n-1}, ρ]`
satisfies `Σᵢ 2ⁱ·Cᵢ = com + ρ·h`, so `check_adequate_lhs` returns `True`. -/
theorem range_precommit_passes_check (pf : PowerTwoRangeProof)
    (sample : Nat → Nat) (hq : 0 < pf.g.group.order)
    (hh : pf.h.group = pf.g.group)
    (hcom : pf.com =
      (EcPt.smul pf.value pf.g).add (EcPt.smul pf.randomizer pf.h))
    (hv : Nat.size pf.value ≤ pf.nr_bits) :
    ∃ pre, internal_precommit pf sample = .ok pre ∧
      check_adequate_lhs pf pre = true := by
  have hhq : pf.h.group.order = pf.g.group.order := by rw [hh]
  obtain ⟨l, hdec, hlen, hget⟩ := decompose_ok pf.value pf.nr_bits hv
  refine ⟨⟨List.zipWith (fun b r => (EcPt.smul b pf.g).add (EcPt.smul r pf.h))
      l ((List.range pf.nr_bits).map (fun i => sample i % pf.g.group.order)),
    mod_sub (randLoop pf.g.group.order
        ((List.range pf.nr_bits).map (fun i => sample i % pf.g.group.order)) 0 1)
      pf.randomizer pf.g.group.order⟩, ?_, ?_⟩
  · rw [internal_precommit.eq_def]
    simp only [hdec, bind, Except.bind, pure, Except.pure]
  · rw [check_adequate_lhs]
    show decide
      (combineLoop
        ((List.zipWith (fun b r => (EcPt.smul b pf.g).add (EcPt.smul r pf.h))
            l ((List.range pf.nr_bits).map
              (fun i => sample i % pf.g.group.order))).take pf.nr_bits)
        pf.g.group.infinite 1 =
      pf.com.add (EcPt.smul
        (mod_sub (randLoop pf.g.group.order
            ((List.range pf.nr_bits).map
              (fun i => sample i % pf.g.group.order)) 0 1)
          pf.randomizer pf.g.group.order) pf.h)) = true
    have hcslen : (List.zipWith
        (fun b r => (EcPt.smul b pf.g).add (EcPt.smul r pf.h))
        l ((List.range pf.nr_bits).map
          (fun i => sample i % pf.g.group.order))).length = pf.nr_bits := by
      rw [List.length_zipWith, hlen]
      simp
    rw [List.take_of_length_le (by omega)]
    have hcsgrp : ∀ (bs rs2 : List Nat) (p : EcPt),
        p ∈ List.zipWith (fun b r =>
          (EcPt.smul b pf.g).add (EcPt.smul r pf.h)) bs rs2 →
        p.group.order = pf.g.group.order := by
      intro bs
      induction bs with
      | nil => intro rs2 p hp; simp at hp
      | cons b bs ih =>
        intro rs2 p hp
        cases rs2 with
        | nil => simp at hp
        | cons r rs2 =>
          rw [List.zipWith_cons_cons] at hp
          rcases List.mem_cons.mp hp with rfl | hp
          · rfl
          · exact ih rs2 p hp
    obtain ⟨hLG, hLlt, hLcast⟩ := combineLoop_spec hq pf.g.group rfl
      (List.zipWith (fun b r => (EcPt.smul b pf.g).add (EcPt.smul r pf.h))
        l ((List.range pf.nr_bits).map (fun i => sample i % pf.g.group.order)))
      pf.g.group.infinite 1 rfl hq (hcsgrp l _)
    have hcomG : pf.com.group = pf.g.group := by rw [hcom]; rfl
    have hmain : combineLoop
        (List.zipWith (fun b r => (EcPt.smul b pf.g).add (EcPt.smul r pf.h))
          l ((List.range pf.nr_bits).map (fun i => sample i % pf.g.group.order)))
        pf.g.group.infinite 1 =
        pf.com.add (EcPt.smul
          (mod_sub (randLoop pf.g.group.order
              ((List.range pf.nr_bits).map
                (fun i => sample i % pf.g.group.order)) 0 1)
            pf.randomizer pf.g.group.order) pf.h) := by
      refine EcPt.eq_of_cast hq _ _ ?_ hLlt ?_ ?_
      · rw [hLG, EcPt.add_group, hcomG]
      · exact EcPt.add_val_lt hq pf.com _ (by rw [hcomG])
      · rw [hLcast, map_bitcommit_val pf.g pf.h rfl hhq l _,
          Nat.cast_one,
          wsum_linear pf.g.group.order
            ((pf.g.val : ZMod pf.g.group.order))
            ((pf.h.val : ZMod pf.g.group.order))
            (l.map (fun (a : ℕ) => (a : ZMod pf.g.group.order)))
            (((List.range pf.nr_bits).map
                (fun i => sample i % pf.g.group.order)).map
              (fun (a : ℕ) => (a : ZMod pf.g.group.order)))
            1 (by simp [hlen]),
          wsum_natCast, wsum_natCast,
          natWsum_bits l pf.value pf.nr_bits hlen hget (Nat.size_le.mp hv)]
        rw [EcPt.add_val_cast pf.com _ (by rw [hcomG]),
          EcPt.smul_val_cast _ pf.h hhq,
          mod_sub_cast hq, randLoop_cast]
        rw [hcom, EcPt.add_val_cast _ _ (by rw [EcPt.smul_group]),
          EcPt.smul_val_cast pf.value pf.g rfl,
          EcPt.smul_val_cast pf.randomizer pf.h hhq,
          Nat.cast_one, wsum_natCast]
        simp only [EcGroup.infinite]
        push_cast
        ring
    rw [hmain]
    simp

/-- Witness for C7: `com = 10·g + 6·h` over the group of order 11 with 5
bits declared; the emitted precommitment passes `check_adequate_lhs`. -/
theorem range_precommit_passes_check_witness :
    ∃ pre,
      internal_precommit
          ⟨⟨⟨0, 11⟩, 1⟩, ⟨⟨0, 11⟩, 1⟩, ⟨⟨0, 11⟩, 4⟩, 5, 10, 6⟩
          (fun i => i * 13 + 5) = .ok pre ∧
      check_adequate_lhs ⟨⟨⟨0, 11⟩, 1⟩, ⟨⟨0, 11⟩, 1⟩, ⟨⟨0, 11⟩, 4⟩, 5, 10, 6⟩
        pre = true :=
  range_precommit_passes_check
    ⟨⟨⟨0, 11⟩, 1⟩, ⟨⟨0, 11⟩, 1⟩, ⟨⟨0, 11⟩, 4⟩, 5, 10, 6⟩
    (fun i => i * 13 + 5) (by decide) rfl (by decide)
    (by rw [Nat.size_le]; norm_num)
